import Mathlib

/-!
# Verification of the transcribe0 subtitle/transcription core

Shallow embedding of the text-normalization pipeline (`utils.clean_subtitle_text`
with the pre-compiled regexes of `constants.py`), the caption-selection logic of
`youtube_handler.get_youtube_subtitles`, and the chunked-transcription orchestration
of `audio_processing.py` (`process_large_audio`, `transcribe_audio_file`, with
pydub's `make_chunks` semantics at the call site).

Strings are modelled as `List Char` (ASCII scope: Python's `str.lower`, `str.strip`
and the `\s` class are modelled on the ASCII whitespace/letter ranges, which covers
every input mentioned in the specification).  Scanning substitution functions that
consume a matched span (the Python `re.sub` loops) are written with an explicit
fuel argument equal to the input length so that every definition is structurally
recursive and kernel-evaluable; fuel `≥ length` is always sufficient and the
wrappers instantiate fuel with the length of the input.
-/

set_option maxHeartbeats 1000000

abbrev Str := List Char

/-- Python whitespace (`str.split`/`str.strip` with no argument, and the `\s` class
of `WHITESPACE_REGEX`), ASCII scope: space, tab, newline, carriage return,
vertical tab, form feed. -/
def isWS (c : Char) : Bool :=
  c == ' ' || c == '\t' || c == '\n' || c == '\r' || c == '\x0b' || c == '\x0c'

/-- The characters stripped from dedup keys: `line.lower().strip('.,!?')`. -/
def isPunct (c : Char) : Bool :=
  c == '.' || c == ',' || c == '!' || c == '?'

/-- Python `s.startswith(p)`. -/
def startsWith : Str → Str → Bool
  | [], _ => true
  | _ :: _, [] => false
  | p :: ps, c :: cs => p == c && startsWith ps cs

/-- Python `p in s` (substring containment). -/
def hasSub (p : Str) : Str → Bool
  | [] => p.isEmpty
  | c :: rest => startsWith p (c :: rest) || hasSub p rest

/-- Python `s.endswith(p)`. -/
def endsWith (p l : Str) : Bool :=
  startsWith p.reverse l.reverse

/-- Remove a trailing run of characters satisfying `p` (the right half of
Python `str.strip`). -/
def dropTrailIf (p : Char → Bool) : Str → Str
  | [] => []
  | c :: rest =>
    match dropTrailIf p rest with
    | [] => if p c then [] else [c]
    | r => c :: r

/-- Python `line.strip()` (no argument: whitespace on both ends). -/
def stripWS (l : Str) : Str :=
  dropTrailIf isWS (l.dropWhile isWS)

/-- Does the list start with a match of `TIMESTAMP_REGEX`, the pattern
`<\d{2}:\d{2}:\d{2}\.\d{3}>` of `constants.py` (14 characters)? -/
def isTsAt : Str → Bool
  | '<' :: a :: b :: ':' :: c :: d :: ':' :: e :: f :: '.' :: g :: h :: i :: '>' :: _ =>
    a.isDigit && b.isDigit && c.isDigit && d.isDigit && e.isDigit && f.isDigit &&
    g.isDigit && h.isDigit && i.isDigit
  | _ => false

/-- `TIMESTAMP_REGEX.sub('', ·)`: remove every (leftmost, non-overlapping)
occurrence of `<\d{2}:\d{2}:\d{2}\.\d{3}>`.  Fueled scanner. -/
def tsSubF : Nat → Str → Str
  | 0, l => l
  | _ + 1, [] => []
  | fuel + 1, c :: rest =>
    if isTsAt (c :: rest) then tsSubF fuel (rest.drop 13)
    else c :: tsSubF fuel rest

def tsSub (l : Str) : Str := tsSubF l.length l

/-- Head-test used by the HTML-tag scanner: does the remainder start with `>`? -/
def headIsGt : Str → Bool
  | [] => false
  | c :: _ => c == '>'

/-- Drop everything up to and including the first occurrence of `cl`. -/
def dropThroughC (cl : Char) : Str → Str
  | [] => []
  | c :: rest => if c = cl then rest else dropThroughC cl rest

/-- `HTML_TAG_REGEX.sub('', ·)` for the pattern `<[^>]+>`: at a `<` whose very
next character is not `>` and with some later `>`, the greedy `[^>]+` followed by
`>` consumes everything through the first `>`; otherwise the scanner advances one
character (Python `re.sub` leftmost, non-overlapping semantics). -/
def htmlSubF : Nat → Str → Str
  | 0, l => l
  | _ + 1, [] => []
  | fuel + 1, c :: rest =>
    if c = '<' ∧ headIsGt rest = false ∧ '>' ∈ rest then
      htmlSubF fuel (dropThroughC '>' rest)
    else c :: htmlSubF fuel rest

def htmlSub (l : Str) : Str := htmlSubF l.length l

/-- Does `l` contain a match of `HTML_TAG_REGEX` = `<[^>]+>`?  A match starts at a
`<` that is not immediately followed by `>` and has a later `>` (the nonempty
`[^>]+` then runs to the first such `>`). -/
def containsTag : Str → Bool
  | [] => false
  | c :: rest =>
    if c = '<' ∧ headIsGt rest = false ∧ '>' ∈ rest then true
    else containsTag rest

/-- `WHITESPACE_REGEX.sub(' ', ·)`: collapse every maximal run of whitespace into
a single space. -/
def collapseWS : Str → Str
  | [] => []
  | [c] => if isWS c then [' '] else [c]
  | c :: d :: rest =>
    if isWS c && isWS d then collapseWS (d :: rest)
    else (if isWS c then ' ' else c) :: collapseWS (d :: rest)

/-- Is there an occurrence of `cl` before any newline?  (`.` in the non-DOTALL
patterns `\[.*?\]` and `\(.*?\)` does not match `\n`.) -/
def closeBefNl (cl : Char) : Str → Bool
  | [] => false
  | c :: rest => if c = cl then true else if c = '\n' then false else closeBefNl cl rest

/-- `re.sub` for a lazy bracket pair pattern (`BRACKET_CONTENT_REGEX` = `\[.*?\]`
with `op = '['`, `cl = ']'`, and `PAREN_CONTENT_REGEX` = `\(.*?\)` with parens):
at `op`, if `cl` occurs before any newline the lazy `.*?` stops at the first `cl`
and the whole span is removed; otherwise no match starts here. -/
def lazySubF (op cl : Char) : Nat → Str → Str
  | 0, l => l
  | _ + 1, [] => []
  | fuel + 1, c :: rest =>
    if c = op ∧ closeBefNl cl rest = true then lazySubF op cl fuel (dropThroughC cl rest)
    else c :: lazySubF op cl fuel rest

def lazySub (op cl : Char) (l : Str) : Str := lazySubF op cl l.length l

/-- Python `text.split('\n')` (always at least one piece). -/
def splitLines : Str → List Str
  | [] => [[]]
  | c :: rest =>
    if c = '\n' then [] :: splitLines rest
    else
      match splitLines rest with
      | [] => [[c]]
      | h :: t => (c :: h) :: t

/-- Python `line.split()` (split on whitespace runs, no empty words).  Fueled. -/
def wordsWSF : Nat → Str → List Str
  | 0, _ => []
  | _ + 1, [] => []
  | fuel + 1, c :: rest =>
    if isWS c then wordsWSF fuel rest
    else (c :: rest.takeWhile (fun d => !isWS d)) :: wordsWSF fuel (rest.dropWhile (fun d => !isWS d))

def wordsWS (l : Str) : List Str := wordsWSF l.length l

/-- Python `' '.join(pieces)`. -/
def joinSpace : List Str → Str
  | [] => []
  | [p] => p
  | p :: ps => p ++ ' ' :: joinSpace ps

/-- `' '.join(line.split())`: collapse internal whitespace of a line. -/
def wordJoin (l : Str) : Str :=
  joinSpace (wordsWS l)

/-- `line_key = line.lower().strip('.,!?')`: lowercase, then strip the characters
`.,!?` from BOTH ends (Python `str.strip(chars)` strips both ends). -/
def keyOf (w : Str) : Str :=
  dropTrailIf isPunct ((w.map Char.toLower).dropWhile isPunct)

/-- Python `line.isdigit()`: nonempty and all digits. -/
def pyIsDigit (l : Str) : Prop :=
  l ≠ [] ∧ ∀ c ∈ l, c.isDigit = true

instance (l : Str) : Decidable (pyIsDigit l) := by
  unfold pyIsDigit; infer_instance

/-- `line.startswith(('WEBVTT', 'Kind:', 'Language:', 'NOTE'))`. -/
def headerSkip (l : Str) : Prop :=
  startsWith "WEBVTT".toList l = true ∨ startsWith "Kind:".toList l = true ∨
  startsWith "Language:".toList l = true ∨ startsWith "NOTE".toList l = true

instance (l : Str) : Decidable (headerSkip l) := by
  unfold headerSkip; infer_instance

/-- `TIME_PATTERN_REGEX.match(line)`: the line starts with `\d{2}:\d{2}:\d{2}`. -/
def timePat : Str → Bool
  | a :: b :: ':' :: c :: d :: ':' :: e :: f :: _ =>
    a.isDigit && b.isDigit && c.isDigit && d.isDigit && e.isDigit && f.isDigit
  | _ => false

/-- The skip conditions of the per-line loop of `clean_subtitle_text`, on the
stripped line: length ≥ 3, no VTT header token, no `-->`, not all digits, no
leading `HH:MM:SS` pattern.  A line is processed further iff `keepLine` holds. -/
def keepLine (l : Str) : Prop :=
  ¬ l.length < 3 ∧ ¬ headerSkip l ∧ ¬ hasSub "-->".toList l = true ∧
  ¬ pyIsDigit l ∧ ¬ timePat l = true

instance (l : Str) : Decidable (keepLine l) := by
  unfold keepLine; infer_instance

/-- The per-line loop of `clean_subtitle_text`: strip, apply the skip conditions,
collapse internal whitespace, then deduplicate by `keyOf` keeping only lines whose
key is unseen and longer than 5. `seen` is the `seen_sentences` set. -/
def dedupLoop : List Str → List Str → List Str
  | [], _ => []
  | l :: ls, seen =>
    let l1 := stripWS l
    if keepLine l1 then
      let w := wordJoin l1
      let k := keyOf w
      if k ∉ seen ∧ 5 < k.length then w :: dedupLoop ls (k :: seen)
      else dedupLoop ls seen
    else dedupLoop ls seen

/-- `utils.clean_subtitle_text`: timestamp strip, HTML-tag strip, per-line
filtering and dedup, join with spaces, whitespace collapse, bracketed and
parenthetical content removal, final strip. -/
def cleanSubtitleText (subtitleContent : Str) : Str :=
  let text := htmlSub (tsSub subtitleContent)
  let cleanLines := dedupLoop (splitLines text) []
  let result := joinSpace cleanLines
  stripWS (lazySub '(' ')' (lazySub '[' ']' (collapseWS result)))

/-! ## Embedding of `youtube_handler.get_youtube_subtitles` and its helpers

The external collaborators (yt-dlp metadata fetch, track download, file listing,
file read, and the Whisper-based language probe) are abstracted into an
environment record `YtEnv`; the pure decision logic of the function is embedded
faithfully over it.  `metadata = none` models the metadata fetch raising (the
code substitutes `None, {}, {}` in its `except` block); `downloadOk = false`
models `extract_info(download=True)` raising; `readOk = false` models the
subtitle-file read raising — both of the latter are caught by the
`except Exception: pass` around the download block, after which the function
returns `(None, False, 'none')`. -/

/-- Environment of external effects for one `get_youtube_subtitles` call. -/
structure YtEnv where
  /-- `extract_info(download=False)` result: `(language, subtitles keys, automatic_captions keys)`;
  `none` = the fetch raised. -/
  metadata : Option (Option Str × List Str × List Str)
  /-- result of `detect_language_with_whisper` (that helper catches its own errors
  and yields `'unknown'` on failure or low confidence). -/
  whisperDetect : Str
  /-- whether `extract_info(download=True)` succeeds. -/
  downloadOk : Bool
  /-- `os.listdir(temp_dir)` after the download. -/
  files : List Str
  /-- whether reading the selected subtitle file succeeds. -/
  readOk : Bool
  /-- the raw content of the selected subtitle file. -/
  content : Str

/-- `whisper_detected_lang`: the probe only runs when the requested language is
`'auto'` and `use_whisper_detection` is set, otherwise it stays `'unknown'`. -/
def effWhisper (env : YtEnv) (language : Str) (useWhisper : Bool) : Str :=
  if language = "auto".toList ∧ useWhisper then env.whisperDetect else "unknown".toList

/-- The `video_language, automatic_captions, subtitles` triple, with the
`except` defaults when the metadata fetch raised. -/
def metaOf (env : YtEnv) : Option Str × List Str × List Str :=
  match env.metadata with
  | some m => m
  | none => (none, [], [])

/-- The literal fallback language array `['es', 'en', 'fr', 'de', 'it', 'pt']`. -/
def commonLangs : List Str :=
  ["es".toList, "en".toList, "fr".toList, "de".toList, "it".toList, "pt".toList]

/-- The availability-based branch: count available codes starting with `en` vs
`es`, pick the corresponding literal priority order, filter to availability. -/
def availabilityOrder (avail : List Str) : List Str :=
  let enC := (avail.filter (fun l => startsWith "en".toList l)).length
  let esC := (avail.filter (fun l => startsWith "es".toList l)).length
  let po := if esC ≤ enC then
      ["en".toList, "es".toList, "fr".toList, "de".toList, "it".toList, "pt".toList]
    else
      ["es".toList, "en".toList, "fr".toList, "de".toList, "it".toList, "pt".toList]
  po.filter (fun l => l ∈ avail)

/-- The pre-fallback priority list of the `language == 'auto'` branch (before the
`list(available_langs)[:6]` and `['es', 'en']` fallbacks): Whisper-detected
language first if available, else YouTube's `video_language` (when truthy and
available), else the availability-based order. -/
def preList (wl : Str) (vl : Option Str) (avail : List Str) : List Str :=
  if wl ≠ "unknown".toList ∧ wl ∈ avail then
    wl :: commonLangs.filter (fun l => l ≠ wl ∧ l ∈ avail)
  else
    match vl with
    | some v =>
      if v ≠ [] ∧ v ∈ avail then v :: commonLangs.filter (fun l => l ≠ v ∧ l ∈ avail)
      else availabilityOrder avail
    | none => availabilityOrder avail

/-- `subtitle_langs` determination (lines 166–221 of `youtube_handler.py`).
`avail` is the iteration order of the set `available_langs`; every test except
the final `list(available_langs)[:6]` fallback uses it only through membership. -/
def resolveSubtitleLangs (language wl : Str) (vl : Option Str) (avail : List Str) : List Str :=
  if language = "auto".toList then
    let s1 := preList wl vl avail
    let s2 := if s1 = [] then avail.take 6 else s1
    if s2 = [] then ["es".toList, "en".toList] else s2
  else
    if language ≠ "en".toList then [language, "en".toList] else ["en".toList]

/-- `subtitle_files`: listdir entries ending in `.vtt` or `.srt`. -/
def filteredFiles (env : YtEnv) : List Str :=
  env.files.filter (fun f => endsWith ".vtt".toList f || endsWith ".srt".toList f)

/-- Is a filename classified as auto-generated (`'.auto.'`, `'auto-generated'`
or `'a.'` occurring in it)? -/
def isAutoName (f : Str) : Bool :=
  hasSub ".auto.".toList f || hasSub "auto-generated".toList f || hasSub "a.".toList f

/-- `manual_subtitle_files`. -/
def manualOf (files : List Str) : List Str :=
  files.filter (fun f => !isAutoName f)

/-- `auto_subtitle_files` (`f not in manual_subtitle_files`). -/
def autoOf (files : List Str) : List Str :=
  files.filter (fun f => isAutoName f)

/-- The filename/language match used by the scan: `.{lang}.`, `-{lang}.`,
`_{lang}.`, leading `{lang}.`, or `.{lang}-`. -/
def matchesLang (lang f : Str) : Bool :=
  hasSub ('.' :: lang ++ ['.']) f || hasSub ('-' :: lang ++ ['.']) f ||
  hasSub ('_' :: lang ++ ['.']) f || startsWith (lang ++ ['.']) f ||
  hasSub ('.' :: lang ++ ['-']) f

/-- Scan one group: languages in priority order, files in listing order; first
match wins. -/
def scanGroup (langs files : List Str) : Option (Str × Str) :=
  langs.findSome? (fun lang => (files.find? (fun f => matchesLang lang f)).map (fun f => (f, lang)))

/-- The two-group scan: manual group as a whole before the auto-generated one. -/
def scanGroups (langs manual auto : List Str) : Option (Str × Str) :=
  match scanGroup langs manual with
  | some fl => some fl
  | none => scanGroup langs auto

/-- Fallback language guess for a fallback-selected filename: first priority
language matching the filename patterns, else the Spanish/English/French keyword
heuristics on the lowercased name, else the head of `subtitle_langs`, else `en`. -/
def fallbackLang (langs : List Str) (f : Str) : Str :=
  match langs.find? (fun lang => matchesLang lang f) with
  | some lang => lang
  | none =>
    let lf := f.map Char.toLower
    if hasSub "spanish".toList lf || hasSub "español".toList lf || hasSub "es-".toList lf then
      "es".toList
    else if hasSub "english".toList lf || hasSub "en-".toList lf then
      "en".toList
    else if hasSub "french".toList lf || hasSub "français".toList lf || hasSub "fr-".toList lf then
      "fr".toList
    else
      match langs.head? with
      | some lang => lang
      | none => "en".toList

/-- `best_subtitle` / `detected_language` selection (lines 246–304): the
priority scan over both groups, then the first-manual-else-first-auto fallback
with `fallbackLang`.  `none` only when there are no subtitle files at all. -/
def selectBest (langs manual auto : List Str) : Option (Str × Str) :=
  match scanGroups langs manual auto with
  | some fl => some fl
  | none =>
    match (if manual ≠ [] then manual else auto).head? with
    | some f => some (f, fallbackLang langs f)
    | none => none

/-- `detect_language_from_content`: padded-word scores for English, Spanish and
French over the lowercased text; `unknown` below 50 characters, on an all-zero
maximum, or when the best score is below 2.  Python's `max(scores, key=...)`
returns the first maximal key in insertion order `en, es, fr`. -/
def detectLanguageFromContent (t : Str) : Str :=
  if t.length < 50 then "unknown".toList
  else
    let tl := t.map Char.toLower
    let score := fun (ws : List Str) => (ws.filter (fun w => hasSub (' ' :: w ++ [' ']) tl)).length
    let enS := score (["the", "and", "that", "have", "for", "not", "with", "you", "this",
      "but", "his", "from", "they", "she", "her", "been", "than", "its", "who", "did"].map String.toList)
    let esS := score (["que", "una", "con", "para", "por", "son", "como", "este", "esta",
      "pero", "sus", "desde", "ellos", "ella", "sido", "más", "quien", "hizo"].map String.toList)
    let frS := score (["que", "une", "avec", "pour", "par", "sont", "comme", "cette",
      "mais", "ses", "depuis", "ils", "elle", "été", "plus", "qui", "fait"].map String.toList)
    if enS = 0 ∧ esS = 0 ∧ frS = 0 then "unknown".toList
    else
      let det := if esS ≤ enS ∧ frS ≤ enS then "en".toList
        else if frS ≤ esS then "es".toList else "fr".toList
      let detS := if esS ≤ enS ∧ frS ≤ enS then enS else if frS ≤ esS then esS else frS
      if 2 ≤ detS then det else "unknown".toList

/-- The post-selection language override (lines 313–335): Whisper detection is
the ultimate authority when it produced a language; otherwise content analysis
overrides the filename-based result when it is not `unknown`. -/
def finalLang (wl cleaned detPre : Str) : Str :=
  if wl ≠ "unknown".toList then wl
  else
    let c := detectLanguageFromContent cleaned
    if c ≠ "unknown".toList then c else detPre

/-- The `subtitle_langs` value computed inside `get_youtube_subtitles`; the set
`available_langs` is enumerated as the deduplicated concatenation of manual and
automatic caption keys. -/
def subtitleLangsOf (env : YtEnv) (language : Str) (useWhisper : Bool) : List Str :=
  resolveSubtitleLangs language (effWhisper env language useWhisper) (metaOf env).1
    (((metaOf env).2.1 ++ (metaOf env).2.2).dedup)

/-- `get_youtube_subtitles(url, language, use_whisper_detection)`, over the
environment of external effects: returns `(text, found, language)`. -/
def getYoutubeSubtitles (env : YtEnv) (language : Str) (useWhisper : Bool) :
    Option Str × Bool × Str :=
  let wl := effWhisper env language useWhisper
  let langs := subtitleLangsOf env language useWhisper
  if env.downloadOk then
    match selectBest langs (manualOf (filteredFiles env)) (autoOf (filteredFiles env)) with
    | some fl =>
      if env.readOk then
        let cleaned := cleanSubtitleText env.content
        (some cleaned, true, finalLang wl cleaned fl.2)
      else (none, false, "none".toList)
    | none => (none, false, "none".toList)
  else (none, false, "none".toList)

/-! ## Embedding of `audio_processing.py`

`process_large_audio` is modelled by the event trace it produces on the
filesystem and the speech capability: per chunk it creates a temp file, invokes
`model.transcribe` on it, and unlinks it on success; a transcription error
propagates out of the loop before the `os.unlink` line (the
`NamedTemporaryFile(delete=False)` context manager only closes the handle).
`transcribe_audio_file` is modelled by the list of speech-capability
invocations it performs.  Durations are in milliseconds (`len(audio)`); the
float comparison `len(audio)/1000 > 120` is exact for integers and equals
`durationMs > 120000`. -/

/-- `AudioConstants.CHUNK_DURATION_MS`. -/
def chunkDurationMs : Nat := 60000

/-- `AudioConstants.LARGE_FILE_THRESHOLD` (seconds). -/
def largeFileThreshold : Nat := 120

/-- pydub `make_chunks(audio, C)` at the call site of `process_large_audio`:
slices `audio[i : i + C]` for `i in range(0, len(audio), C)`, i.e. `⌈L/C⌉`
chunks, chunk `i` spanning `[i*C, min((i+1)*C, L))` milliseconds. -/
def makeChunks (lenMs chunkLen : Nat) : List (Nat × Nat) :=
  (List.range ((lenMs + chunkLen - 1) / chunkLen)).map
    (fun i => (i * chunkLen, min (i * chunkLen + chunkLen) lenMs))

/-- One filesystem/capability event of the chunk loop of `process_large_audio`. -/
inductive ChunkEv where
  /-- `tempfile.NamedTemporaryFile(delete=False)` for chunk `i` -/
  | create (i : Nat)
  /-- `model.transcribe` on the temp file of chunk `i` -/
  | invoke (i : Nat)
  /-- `os.unlink` of the temp file of chunk `i` -/
  | unlink (i : Nat)
deriving DecidableEq, Repr

/-- The event trace of the chunk loop from chunk `i` with `k` chunks remaining:
create, invoke, and on success unlink then continue; on a transcription error
(`trans i = none`) the exception aborts the loop with no unlink. -/
def chunkLoopEv (trans : Nat → Option Str) : Nat → Nat → List ChunkEv
  | _, 0 => []
  | i, k + 1 =>
    ChunkEv.create i :: ChunkEv.invoke i ::
      match trans i with
      | none => []
      | some _ => ChunkEv.unlink i :: chunkLoopEv trans (i + 1) k

/-- `process_large_audio` event trace over all chunks. -/
def processLargeAudioEv (trans : Nat → Option Str) (numChunks : Nat) : List ChunkEv :=
  chunkLoopEv trans 0 numChunks

/-- A speech-capability invocation of `transcribe_audio_file`: either the whole
file or one exported chunk, with the language argument that is passed. -/
inductive WhisperCall where
  /-- `model.transcribe` on the whole file -/
  | whole (langArg : Option Str)
  /-- `model.transcribe` on the temp file of chunk `index` -/
  | chunk (index : Nat) (langArg : Option Str)
deriving DecidableEq, Repr

/-- The language argument: passed iff the selection is not `'auto'`. -/
def langArgOf (language : Str) : Option Str :=
  if language = "auto".toList then none else some language

/-- The speech-capability invocations performed by `transcribe_audio_file` for a
file of `durationMs` milliseconds: one whole-file call when
`duration <= LARGE_FILE_THRESHOLD`, else one call per `make_chunks` chunk in
index order (the loop of `process_large_audio`). -/
def transcribeAudioFileCalls (durationMs : Nat) (language : Str) : List WhisperCall :=
  if durationMs > largeFileThreshold * 1000 then
    (List.range (makeChunks durationMs chunkDurationMs).length).map
      (fun i => WhisperCall.chunk i (langArgOf language))
  else [WhisperCall.whole (langArgOf language)]

/-- Pure dedup stage over already-filtered, whitespace-collapsed lines (the body
of the `for` loop of `clean_subtitle_text` from `line_key = ...` on). -/
def dedupFilter : List Str → List Str → List Str
  | [], _ => []
  | w :: ws, seen =>
    let k := keyOf w
    if k ∉ seen ∧ 5 < k.length then w :: dedupFilter ws (k :: seen)
    else dedupFilter ws seen

/-- Modelled from the claim's words (C8), for refutation: the dedup key with only
TRAILING `.,!?` stripped (the code's `str.strip('.,!?')` strips both ends). -/
def keyTrailOnly (w : Str) : Str :=
  dropTrailIf isPunct (w.map Char.toLower)

/-- The dedup stage as described by claim C8 (trailing-only key strip). -/
def dedupFilterTrailOnly : List Str → List Str → List Str
  | [], _ => []
  | w :: ws, seen =>
    let k := keyTrailOnly w
    if k ∉ seen ∧ 5 < k.length then w :: dedupFilterTrailOnly ws (k :: seen)
    else dedupFilterTrailOnly ws seen

/-- Is a `WhisperCall` a whole-file invocation? -/
def isWholeCall : WhisperCall → Bool
  | WhisperCall.whole _ => true
  | WhisperCall.chunk _ _ => false

/-- The language argument of a `WhisperCall`. -/
def callLangArg : WhisperCall → Option Str
  | WhisperCall.whole a => a
  | WhisperCall.chunk _ a => a

/-- The three events of one successful chunk iteration of `process_large_audio`. -/
def chunkBlock (i : Nat) : List ChunkEv :=
  [ChunkEv.create i, ChunkEv.invoke i, ChunkEv.unlink i]

/-- Concrete environment: the filename scan selects `en`, but the Whisper probe
reported `fr`, which overrides the scan result. -/
def envScanOverride : YtEnv :=
  { metadata := some (none, [], ["en".toList]), whisperDetect := "fr".toList,
    downloadOk := true, files := ["video.en.vtt".toList], readOk := true,
    content := "hello".toList }

/-- Concrete environment: the metadata fetch raises, but the download still
succeeds and a Spanish track is found. -/
def envMetaFail : YtEnv :=
  { metadata := none, whisperDetect := "unknown".toList, downloadOk := true,
    files := ["x.es.vtt".toList], readOk := true, content := "hola".toList }

/-- Concrete environment: an English track is selected but its content is a bare
VTT header, which normalizes to the empty string. -/
def envEmptyText : YtEnv :=
  { metadata := some (none, [], ["en".toList]), whisperDetect := "unknown".toList,
    downloadOk := true, files := ["video.en.vtt".toList], readOk := true,
    content := "WEBVTT\n".toList }

/-! ### Invariant machinery for the no-HTML-markup property

`containsTag l = false` says `l` has no match of `<[^>]+>`.  Equivalently, every
`<` in `l` is either immediately followed by `>` or has no `>` anywhere after
it.  `lineGood l g` is the per-line version, where the flag `g` records whether
some `>` occurs in later material (a later line of the same text, a later word
of the same join): a `<` that is not immediately closed must then see no `>` in
the rest of its own line and no later `>` at all.  These predicates let the
no-tag property of the HTML-stripped text be transported through line
splitting, per-line whitespace processing, dedup, and the final join. -/

/-- Per-line goodness under a "later material contains `>`" flag `g`. -/
def lineGood : Str → Bool → Bool
  | [], _ => true
  | c :: rest, g =>
    if c = '<' then
      if headIsGt rest then lineGood rest g
      else decide ('>' ∉ rest) && !g && lineGood rest g
    else lineGood rest g

/-- Does any of the given pieces contain `>`? -/
def anyGt (ls : List Str) : Bool :=
  ls.any (fun m => decide ('>' ∈ m))

/-- Every line is good given the `>`-content of the lines after it. -/
def linesGood : List Str → Bool
  | [] => true
  | l :: ls => lineGood l (anyGt ls) && linesGood ls

/-- Every piece is good given the `>`-content of the later pieces and of the
ambient later material `g`. -/
def piecesGood : List Str → Bool → Bool
  | [], _ => true
  | p :: ps, g => lineGood p (anyGt ps || g) && piecesGood ps g

/-- A canonical word list: every piece is nonempty and whitespace-free (the
shape produced by Python `str.split`). -/
def cleanWords (W : List Str) : Prop :=
  ∀ w ∈ W, w ≠ [] ∧ ∀ c ∈ w, isWS c = false

/-! ## Theorems -/

example : cleanSubtitleText "WEBVTT\n\n00:00:01.000 --> 00:00:02.000\nHello world\n\n00:00:02.000 --> 00:00:03.000\nHello world\n".toList = "Hello world".toList := by decide

example : cleanSubtitleText "abcdef [x] abcdef".toList = "abcdef  abcdef".toList := by decide

example : cleanSubtitleText "abcdef  abcdef".toList = "abcdef abcdef".toList := by decide

/-- C1 counterexample: `clean_subtitle_text` is not idempotent.  Removing the
bracketed annotation happens after line whitespace was collapsed, leaving a
double space that a second application collapses. -/
theorem clean_subtitle_text_not_idempotent_cex :
    cleanSubtitleText (cleanSubtitleText "abcdef [x] abcdef".toList) ≠
      cleanSubtitleText "abcdef [x] abcdef".toList := by
  decide

/-- C8 counterexample: the dedup key strips `.,!?` from BOTH ends (Python
`str.strip`), so two lines differing only in leading punctuation share one key
and deduplicate to a single occurrence, contradicting the claim's trailing-only
key (under which both would be kept). -/
theorem dedup_key_cex :
    dedupFilter [",,,abcdef".toList, "abcdef".toList] [] = [",,,abcdef".toList] ∧
    dedupFilterTrailOnly [",,,abcdef".toList, "abcdef".toList] []
      = [",,,abcdef".toList, "abcdef".toList] ∧
    cleanSubtitleText ",,,abcdef\nabcdef".toList = ",,,abcdef".toList := by
  refine ⟨by decide, by decide, by decide⟩

/-- C10: `found = true` does not imply non-empty text: a selected English track
whose content is a bare `WEBVTT` header normalizes to the empty string, returned
with `found = true` and language `en`. -/
theorem found_true_empty_text :
    getYoutubeSubtitles envEmptyText "auto".toList false = (some [], true, "en".toList) := by
  decide

/-- C3 counterexample: the filename scan selects priority language `en`, but the
returned language code is the Whisper-detected `fr` (the post-selection override
of lines 313–320), so the returned code is not the scan-selected language. -/
theorem get_youtube_subtitles_scan_language_cex :
    scanGroups (subtitleLangsOf envScanOverride "auto".toList true)
        (manualOf (filteredFiles envScanOverride)) (autoOf (filteredFiles envScanOverride))
      = some ("video.en.vtt".toList, "en".toList) ∧
    (getYoutubeSubtitles envScanOverride "auto".toList true).2.2 = "fr".toList := by
  refine ⟨by decide, by decide⟩

/-- C5 counterexample: when the metadata fetch fails, the function does not
return `(None, False, 'none')` — the failure is absorbed with empty defaults and
the download/scan still proceeds (here finding a Spanish track). -/
theorem get_youtube_subtitles_metadata_failure_cex :
    envMetaFail.metadata = none ∧
    getYoutubeSubtitles envMetaFail "auto".toList false ≠ (none, false, "none".toList) := by
  refine ⟨rfl, by decide⟩

/-- C9 counterexample: two enumeration orders of the same available-language set
(no candidate in the literal priority list) reach the `list(available_langs)[:6]`
fallback and give different output lists, so the result does depend on the
unordered-set iteration order. -/
theorem resolve_priority_determinism_cex :
    ["ja".toList, "ko".toList].Perm ["ko".toList, "ja".toList] ∧
    resolveSubtitleLangs "auto".toList "unknown".toList none ["ja".toList, "ko".toList] ≠
      resolveSubtitleLangs "auto".toList "unknown".toList none ["ko".toList, "ja".toList] := by
  refine ⟨by decide, by decide⟩

/-- C4 counterexample: when the speech capability raises on a chunk, the temp
file created for that chunk is not deleted (the `os.unlink` is only reached on
success; `NamedTemporaryFile(delete=False)` does not delete on context exit). -/
theorem process_large_audio_cleanup_cex :
    processLargeAudioEv (fun _ => none) 1 = [ChunkEv.create 0, ChunkEv.invoke 0] ∧
    ChunkEv.unlink 0 ∉ processLargeAudioEv (fun _ => none) 1 := by
  refine ⟨by decide, by decide⟩

theorem chunk_index_lt_iff {L C i : Nat} (hC : 0 < C) (hL : 0 < L) :
    i < (L + C - 1) / C ↔ i * C < L := by
  rw [Nat.lt_iff_add_one_le, Nat.le_div_iff_mul_le hC, Nat.add_mul, Nat.one_mul]
  omega

theorem ceil_mul_ge {L C : Nat} (hC : 0 < C) : L ≤ ((L + C - 1) / C) * C := by
  have h := Nat.div_add_mod (L + C - 1) C
  have hr : (L + C - 1) % C < C := Nat.mod_lt _ hC
  have hcomm : C * ((L + C - 1) / C) = ((L + C - 1) / C) * C := Nat.mul_comm _ _
  omega

theorem makeChunks_getD {L C i : Nat} (h : i < (L + C - 1) / C) :
    (makeChunks L C).getD i (0, 0) = (i * C, min (i * C + C) L) := by
  unfold makeChunks
  rw [List.getD_eq_getElem?_getD, List.getElem?_map, List.getElem?_range h]
  rfl

/-- C6: for a chunked file (`duration > LARGE_FILE_THRESHOLD`, positive chunk
size `C`) the partition produced by `make_chunks` has exactly `⌈L/C⌉` chunks,
chunk `i` spans `[i*C, min(i*C + C, L))`, consecutive chunks are contiguous,
every chunk except possibly the last has length exactly `C`, the first chunk
starts at `0` and the last ends exactly at `L` (all in milliseconds). -/
theorem make_chunks_partition (L C : Nat) (hL : largeFileThreshold * 1000 < L) (hC : 0 < C) :
    (makeChunks L C).length = (L + C - 1) / C ∧
    (∀ i, i < (L + C - 1) / C →
      (makeChunks L C).getD i (0, 0) = (i * C, min (i * C + C) L)) ∧
    (∀ i, i + 1 < (L + C - 1) / C →
      ((makeChunks L C).getD i (0, 0)).2 = ((makeChunks L C).getD (i + 1) (0, 0)).1 ∧
      ((makeChunks L C).getD i (0, 0)).2 - ((makeChunks L C).getD i (0, 0)).1 = C) ∧
    ((makeChunks L C).getD 0 (0, 0)).1 = 0 ∧
    ((makeChunks L C).getD ((L + C - 1) / C - 1) (0, 0)).2 = L := by
  have hL0 : 0 < L := by omega
  have hn0 : 0 < (L + C - 1) / C := by
    rw [chunk_index_lt_iff hC hL0]; omega
  refine ⟨by simp [makeChunks], fun i hi => makeChunks_getD hi, ?_, ?_, ?_⟩
  · intro i hi
    have hi1 : i < (L + C - 1) / C := by omega
    have hend : i * C + C ≤ L := by
      have := (chunk_index_lt_iff hC hL0).mp hi
      rw [Nat.add_mul, Nat.one_mul] at this
      omega
    rw [makeChunks_getD hi1, makeChunks_getD hi]
    simp [Nat.min_eq_left hend, Nat.add_mul, Nat.one_mul]
  · rw [makeChunks_getD hn0]; simp
  · rw [makeChunks_getD (by omega : (L + C - 1) / C - 1 < (L + C - 1) / C)]
    have hge : L ≤ ((L + C - 1) / C - 1) * C + C := by
      have h1 := ceil_mul_ge (L := L) hC
      have h2 : ((L + C - 1) / C - 1) * C = ((L + C - 1) / C) * C - C :=
        Nat.sub_one_mul _ _ ▸ rfl
      have h3 : C ≤ ((L + C - 1) / C) * C := by
        calc C = 1 * C := (Nat.one_mul C).symm
        _ ≤ ((L + C - 1) / C) * C := Nat.mul_le_mul_right C hn0
      omega
    simp [Nat.min_eq_right hge]

/-- C6 witness: a 150-second file with 60000 ms chunks yields the three chunks
`[0, 60000)`, `[60000, 120000)`, `[120000, 150000)`. -/
theorem make_chunks_partition_witness :
    largeFileThreshold * 1000 < 150000 ∧ 0 < 60000 ∧
    (makeChunks 150000 60000).length = (150000 + 60000 - 1) / 60000 ∧
    (makeChunks 150000 60000).getD ((150000 + 60000 - 1) / 60000 - 1) (0, 0) = (120000, 150000) := by
  refine ⟨by decide, by decide, (make_chunks_partition 150000 60000 (by decide) (by decide)).1, ?_⟩
  have h := (make_chunks_partition 150000 60000 (by decide) (by decide)).2.1 2 (by decide)
  simpa using h

/-- C7: `transcribe_audio_file` makes exactly one whole-file speech invocation
iff the probed duration is at most `LARGE_FILE_THRESHOLD` (the float comparison
`len(audio)/1000 > 120` equals `durationMs > 120000` for integer lengths);
otherwise it makes one invocation per `make_chunks` chunk, indices strictly in
order `0, 1, ...`; in both paths the language argument is passed iff the
selection is not `'auto'`. -/
theorem transcribe_audio_file_dispatch (L : Nat) (language : Str) :
    (((transcribeAudioFileCalls L language).filter isWholeCall).length = 1 ↔
      L ≤ largeFileThreshold * 1000) ∧
    (largeFileThreshold * 1000 < L →
      transcribeAudioFileCalls L language =
        (List.range ((L + chunkDurationMs - 1) / chunkDurationMs)).map
          (fun i => WhisperCall.chunk i (langArgOf language))) ∧
    (∀ call ∈ transcribeAudioFileCalls L language,
      callLangArg call = if language = "auto".toList then none else some language) := by
  unfold transcribeAudioFileCalls
  by_cases h : largeFileThreshold * 1000 < L
  · rw [if_pos h]
    refine ⟨?_, ?_, ?_⟩
    · rw [List.filter_map]
      have hnone : isWholeCall ∘ (fun i => WhisperCall.chunk i (langArgOf language)) =
          fun _ => false := by
        funext i; rfl
      rw [hnone, List.filter_false]
      simp
      omega
    · intro _
      simp [makeChunks]
    · intro call hc
      rw [List.mem_map] at hc
      obtain ⟨i, _, hi⟩ := hc
      rw [← hi]
      rfl
  · rw [if_neg h]
    refine ⟨?_, fun hh => absurd hh h, ?_⟩
    · simp [isWholeCall]
      omega
    · intro call hc
      rw [List.mem_singleton] at hc
      subst hc
      rfl

/-- C7 witness: a 150000 ms file is chunked (three chunk invocations, no
whole-file invocation), and at 100000 ms with language `es` a single whole-file
invocation with the language argument passed. -/
theorem transcribe_audio_file_dispatch_witness :
    largeFileThreshold * 1000 < 150000 ∧
    transcribeAudioFileCalls 150000 "es".toList =
      (List.range ((150000 + chunkDurationMs - 1) / chunkDurationMs)).map
        (fun i => WhisperCall.chunk i (langArgOf "es".toList)) ∧
    (((transcribeAudioFileCalls 100000 "es".toList).filter isWholeCall).length = 1 ↔
      100000 ≤ largeFileThreshold * 1000) := by
  exact ⟨by decide, (transcribe_audio_file_dispatch 150000 "es".toList).2.1 (by decide),
    (transcribe_audio_file_dispatch 100000 "es".toList).1⟩

theorem chunkLoopEv_ok (trans : Nat → Option Str) :
    ∀ k i, (∀ j, i ≤ j → j < i + k → trans j ≠ none) →
      chunkLoopEv trans i k = ((List.range' i k).map chunkBlock).flatten := by
  intro k
  induction k with
  | zero => intro i _; rfl
  | succ k ih =>
    intro i h
    have hi : trans i ≠ none := h i (Nat.le_refl i) (by omega)
    unfold chunkLoopEv
    cases htr : trans i with
    | none => exact absurd htr hi
    | some t =>
      rw [List.range'_succ, List.map_cons, List.flatten_cons]
      rw [ih (i + 1) (fun j h1 h2 => h j (by omega) (by omega))]
      rfl

theorem chunkLoopEv_fail (trans : Nat → Option Str) :
    ∀ k i m, m < k → trans (i + m) = none → (∀ j, i ≤ j → j < i + m → trans j ≠ none) →
      chunkLoopEv trans i k =
        ((List.range' i m).map chunkBlock).flatten ++
          [ChunkEv.create (i + m), ChunkEv.invoke (i + m)] := by
  intro k
  induction k with
  | zero => intro i m hm; omega
  | succ k ih =>
    intro i m hm hfail hok
    cases m with
    | zero =>
      unfold chunkLoopEv
      rw [show i + 0 = i from rfl] at hfail
      rw [hfail]
      simp
    | succ m =>
      have hi : trans i ≠ none := hok i (Nat.le_refl i) (by omega)
      unfold chunkLoopEv
      cases htr : trans i with
      | none => exact absurd htr hi
      | some t =>
        rw [List.range'_succ, List.map_cons, List.flatten_cons]
        have hidx : i + 1 + m = i + (m + 1) := by omega
        rw [ih (i + 1) m (by omega) (by rw [hidx]; exact hfail)
          (fun j h1 h2 => hok j (by omega) (by omega))]
        rw [hidx]
        rfl

theorem unlink_not_mem_blocks {x : Nat} {L : List Nat} (hx : x ∉ L) :
    ChunkEv.unlink x ∉ (L.map chunkBlock).flatten := by
  intro hmem
  rw [List.mem_flatten] at hmem
  obtain ⟨b, hb, hxb⟩ := hmem
  rw [List.mem_map] at hb
  obtain ⟨j, hj, hjb⟩ := hb
  rw [← hjb] at hxb
  unfold chunkBlock at hxb
  simp only [List.mem_cons, List.mem_singleton] at hxb
  have hxj : x = j := by
    rcases hxb with h | h | h | h
    · cases h
    · cases h
    · exact ChunkEv.unlink.inj h
    · exact absurd h (List.not_mem_nil _)
  exact hx (hxj ▸ hj)

/-- C4 (amended): on the success path every chunk's transient file is created,
transcribed, and unlinked before the next chunk's file is created (the trace is
the in-order concatenation of per-chunk create/invoke/unlink blocks); but when
the speech capability raises on chunk `k`, the trace ends right after that
chunk's create and invoke — the temp file of the failing chunk is never
unlinked. -/
theorem process_large_audio_cleanup (trans : Nat → Option Str) (n k : Nat) :
    ((∀ i, i < n → trans i ≠ none) →
      processLargeAudioEv trans n = ((List.range n).map chunkBlock).flatten) ∧
    (k < n → trans k = none → (∀ j, j < k → trans j ≠ none) →
      processLargeAudioEv trans n =
        ((List.range k).map chunkBlock).flatten ++ [ChunkEv.create k, ChunkEv.invoke k] ∧
      ChunkEv.unlink k ∉ processLargeAudioEv trans n) := by
  constructor
  · intro h
    unfold processLargeAudioEv
    rw [chunkLoopEv_ok trans n 0 (fun j h1 h2 => h j (by omega)), List.range_eq_range']
  · intro hk hfail hok
    have heq : processLargeAudioEv trans n =
        ((List.range k).map chunkBlock).flatten ++ [ChunkEv.create k, ChunkEv.invoke k] := by
      unfold processLargeAudioEv
      have h := chunkLoopEv_fail trans n 0 k hk (by simpa using hfail)
        (fun j h1 h2 => hok j (by omega))
      simpa [List.range_eq_range'] using h
    refine ⟨heq, ?_⟩
    rw [heq]
    intro hmem
    rw [List.mem_append] at hmem
    rcases hmem with h | h
    · exact unlink_not_mem_blocks (by simp) h
    · simp only [List.mem_cons, List.mem_singleton] at h
      rcases h with h | h
      · cases h
      · rcases h with h | h
        · cases h
        · cases h

/-- C4 witness: with a capability that succeeds on every chunk, three chunks
produce the three in-order create/invoke/unlink blocks; with one that fails on
chunk 1 of 3, the trace stops after chunk 1's invoke and its file stays. -/
theorem process_large_audio_cleanup_witness :
    processLargeAudioEv (fun _ => some []) 3 = ((List.range 3).map chunkBlock).flatten ∧
    (processLargeAudioEv (fun i => if i = 0 then some [] else none) 3 =
      ((List.range 1).map chunkBlock).flatten ++ [ChunkEv.create 1, ChunkEv.invoke 1] ∧
     ChunkEv.unlink 1 ∉ processLargeAudioEv (fun i => if i = 0 then some [] else none) 3) := by
  refine ⟨(process_large_audio_cleanup (fun _ => some []) 3 0).1 (fun i _ => by simp), ?_⟩
  exact (process_large_audio_cleanup (fun i => if i = 0 then some [] else none) 3 1).2
    (by omega) (by simp) (fun j hj => by
      have hj0 : j = 0 := by omega
      subst hj0
      simp)

theorem scanGroup_nil (langs : List Str) : scanGroup langs [] = none := by
  induction langs with
  | nil => rfl
  | cons a l ih => simp [scanGroup, List.findSome?_cons] at ih ⊢

/-- C5 (amended): no error ever propagates out of `get_youtube_subtitles`: a
failing track download, an empty subtitle-file listing, or a failing file read
each yields `(None, False, 'none')`, and every result is either that triple or a
found triple `(some text, True, lang)`.  (A failing metadata fetch, by contrast,
is absorbed with empty defaults and the scan proceeds — see the counterexample.) -/
theorem get_youtube_subtitles_error_handling (env : YtEnv) (language : Str) (useWhisper : Bool) :
    ((¬ env.downloadOk = true ∨ filteredFiles env = [] ∨ ¬ env.readOk = true) →
      getYoutubeSubtitles env language useWhisper = (none, false, "none".toList)) ∧
    (getYoutubeSubtitles env language useWhisper = (none, false, "none".toList) ∨
      ∃ t lang, getYoutubeSubtitles env language useWhisper = (some t, true, lang)) := by
  unfold getYoutubeSubtitles
  by_cases hdl : env.downloadOk = true
  · rw [if_pos hdl]
    cases hsel : selectBest (subtitleLangsOf env language useWhisper)
        (manualOf (filteredFiles env)) (autoOf (filteredFiles env)) with
    | none =>
      exact ⟨fun _ => rfl, Or.inl rfl⟩
    | some fl =>
      dsimp only
      constructor
      · intro h
        rcases h with h | h | h
        · exact absurd hdl h
        · rw [h] at hsel
          simp [manualOf, autoOf, selectBest, scanGroups, scanGroup_nil] at hsel
        · rw [if_neg h]
      · by_cases hrd : env.readOk = true
        · rw [if_pos hrd]
          exact Or.inr ⟨_, _, rfl⟩
        · rw [if_neg hrd]
          exact Or.inl rfl
  · rw [if_neg hdl]
    exact ⟨fun _ => rfl, Or.inl rfl⟩

/-- C5 witness: a failing download yields the not-found triple, and the shape
disjunction holds at that environment. -/
theorem get_youtube_subtitles_error_handling_witness :
    (¬ ({ envMetaFail with downloadOk := false } : YtEnv).downloadOk = true ∨
      filteredFiles { envMetaFail with downloadOk := false } = [] ∨
      ¬ ({ envMetaFail with downloadOk := false } : YtEnv).readOk = true) ∧
    getYoutubeSubtitles { envMetaFail with downloadOk := false } "auto".toList false
      = (none, false, "none".toList) := by
  refine ⟨Or.inl (by decide), ?_⟩
  exact (get_youtube_subtitles_error_handling { envMetaFail with downloadOk := false }
    "auto".toList false).1 (Or.inl (by decide))

/-- Concrete environment for the C3 witness: English track found by the scan,
no Whisper detection, content that defeats content analysis. -/
def envScanClean : YtEnv :=
  { metadata := some (none, [], ["en".toList]), whisperDetect := "unknown".toList,
    downloadOk := true, files := ["track.en.vtt".toList], readOk := true,
    content := "WEBVTT\nKind: captions\n".toList }

/-- C3 (amended): when the download and read succeed and the two-group filename
scan (manual group before auto-generated, priority languages in order, accepted
delimiters `.L.`, `-L.`, `_L.`, leading `L.`, `.L-`) selects `(file, lang)`, and
no post-selection override applies (the Whisper probe yielded `unknown` and
content analysis of the normalized text yields `unknown`), the function returns
the scan-selected language together with the normalized text and `found = true`. -/
theorem get_youtube_subtitles_scan_language (env : YtEnv) (language : Str) (useWhisper : Bool)
    (f lang : Str)
    (hdl : env.downloadOk = true) (hrd : env.readOk = true)
    (hscan : scanGroups (subtitleLangsOf env language useWhisper)
      (manualOf (filteredFiles env)) (autoOf (filteredFiles env)) = some (f, lang))
    (hwl : effWhisper env language useWhisper = "unknown".toList)
    (hct : detectLanguageFromContent (cleanSubtitleText env.content) = "unknown".toList) :
    getYoutubeSubtitles env language useWhisper
      = (some (cleanSubtitleText env.content), true, lang) := by
  have hsel : selectBest (subtitleLangsOf env language useWhisper)
      (manualOf (filteredFiles env)) (autoOf (filteredFiles env)) = some (f, lang) := by
    unfold selectBest
    rw [hscan]
  unfold getYoutubeSubtitles
  rw [if_pos hdl, hsel]
  dsimp only
  rw [if_pos hrd]
  unfold finalLang
  rw [hwl]
  simp only [ne_eq, not_true_eq_false, if_false, ite_not]
  rw [hct]
  simp

/-- C3 witness: concrete environment where the scan selects `en` and no override
applies; the function returns language `en` with the normalized (empty) text. -/
theorem get_youtube_subtitles_scan_language_witness :
    (envScanClean.downloadOk = true ∧ envScanClean.readOk = true ∧
     scanGroups (subtitleLangsOf envScanClean "auto".toList true)
       (manualOf (filteredFiles envScanClean)) (autoOf (filteredFiles envScanClean))
       = some ("track.en.vtt".toList, "en".toList) ∧
     effWhisper envScanClean "auto".toList true = "unknown".toList ∧
     detectLanguageFromContent (cleanSubtitleText envScanClean.content) = "unknown".toList) ∧
    getYoutubeSubtitles envScanClean "auto".toList true
      = (some (cleanSubtitleText envScanClean.content), true, "en".toList) := by
  refine ⟨⟨by decide, by decide, by decide, by decide, by decide⟩, ?_⟩
  exact get_youtube_subtitles_scan_language envScanClean "auto".toList true
    "track.en.vtt".toList "en".toList (by decide) (by decide) (by decide) (by decide) (by decide)

theorem availabilityOrder_perm {l1 l2 : List Str} (h : l1.Perm l2) :
    availabilityOrder l1 = availabilityOrder l2 := by
  unfold availabilityOrder
  dsimp only
  have hen : (l1.filter (fun l => startsWith "en".toList l)).length
      = (l2.filter (fun l => startsWith "en".toList l)).length :=
    (h.filter _).length_eq
  have hes : (l1.filter (fun l => startsWith "es".toList l)).length
      = (l2.filter (fun l => startsWith "es".toList l)).length :=
    (h.filter _).length_eq
  rw [hen, hes]
  have hmem : ∀ po : List Str, po.filter (fun l => decide (l ∈ l1))
      = po.filter (fun l => decide (l ∈ l2)) := by
    intro po
    apply List.filter_congr
    intro x _
    simp [h.mem_iff]
  by_cases hc : (l2.filter (fun l => startsWith "es".toList l)).length
      ≤ (l2.filter (fun l => startsWith "en".toList l)).length
  · rw [if_pos hc]
    exact hmem _
  · rw [if_neg hc]
    exact hmem _

theorem preList_perm (wl : Str) (vl : Option Str) {l1 l2 : List Str} (h : l1.Perm l2) :
    preList wl vl l1 = preList wl vl l2 := by
  unfold preList
  have hfil : ∀ x : Str, commonLangs.filter (fun l => decide (l ≠ x ∧ l ∈ l1))
      = commonLangs.filter (fun l => decide (l ≠ x ∧ l ∈ l2)) := by
    intro x
    apply List.filter_congr
    intro y _
    simp [h.mem_iff]
  by_cases hw : wl ≠ "unknown".toList ∧ wl ∈ l1
  · rw [if_pos hw, if_pos ⟨hw.1, h.mem_iff.mp hw.2⟩, hfil wl]
  · rw [if_neg hw, if_neg (fun hc => hw ⟨hc.1, h.mem_iff.mpr hc.2⟩)]
    cases vl with
    | none => exact availabilityOrder_perm h
    | some v =>
      by_cases hv : v ≠ [] ∧ v ∈ l1
      · dsimp only
        rw [if_pos hv, if_pos ⟨hv.1, h.mem_iff.mp hv.2⟩, hfil v]
      · dsimp only
        rw [if_neg hv, if_neg (fun hc => hv ⟨hc.1, h.mem_iff.mpr hc.2⟩)]
        exact availabilityOrder_perm h

/-- C9 (amended): `resolveSubtitleLangs` depends on the available-language set
only through membership — and is therefore identical across enumeration orders —
whenever the requested language is concrete or the `auto` branch produces a
nonempty priority list; only the final `list(available_langs)[:6]` fallback
(reached when no candidate matches) depends on the set's iteration order. -/
theorem resolve_priority_determinism (language wl : Str) (vl : Option Str)
    (l1 l2 : List Str) (hperm : l1.Perm l2)
    (hmain : language ≠ "auto".toList ∨ preList wl vl l1 ≠ []) :
    resolveSubtitleLangs language wl vl l1 = resolveSubtitleLangs language wl vl l2 := by
  unfold resolveSubtitleLangs
  by_cases hl : language = "auto".toList
  · rw [if_pos hl, if_pos hl]
    dsimp only
    have hpre := preList_perm wl vl hperm
    have hne : preList wl vl l1 ≠ [] := by
      rcases hmain with h | h
      · exact absurd hl h
      · exact h
    rw [hpre] at hne ⊢
    simp [hne]
  · rw [if_neg hl, if_neg hl]

/-- C9 witness: two orders of the available set `{es, en}` in the main branch
give the same resolved priority list. -/
theorem resolve_priority_determinism_witness :
    ["es".toList, "en".toList].Perm ["en".toList, "es".toList] ∧
    ("auto".toList ≠ "auto".toList ∨
      preList "unknown".toList none ["es".toList, "en".toList] ≠ []) ∧
    resolveSubtitleLangs "auto".toList "unknown".toList none ["es".toList, "en".toList]
      = resolveSubtitleLangs "auto".toList "unknown".toList none ["en".toList, "es".toList] := by
  refine ⟨by decide, Or.inr (by decide), ?_⟩
  exact resolve_priority_determinism "auto".toList "unknown".toList none
    ["es".toList, "en".toList] ["en".toList, "es".toList] (by decide) (Or.inr (by decide))

theorem dedupFilter_spec :
    ∀ (ws pre seen : List Str),
      (∀ k, k ∈ seen ↔ ∃ p ∈ pre, keyOf p = k ∧ 5 < k.length) →
      dedupFilter ws seen =
        ((List.range ws.length).filter (fun i =>
          decide (5 < (keyOf (ws.getD i [])).length ∧
            (∀ p ∈ pre, keyOf p ≠ keyOf (ws.getD i [])) ∧
            ∀ j, j < i → keyOf (ws.getD j []) ≠ keyOf (ws.getD i [])))).map
          (fun i => ws.getD i [])
  | [], pre, seen, hseen => rfl
  | w :: rest, pre, seen, hseen => by
    have hshift :
        ∀ pre2 : List Str,
          ((List.map Nat.succ (List.range rest.length)).filter (fun i =>
            decide (5 < (keyOf ((w :: rest).getD i [])).length ∧
              (∀ p ∈ pre2, keyOf p ≠ keyOf ((w :: rest).getD i [])) ∧
              ∀ j, j < i → keyOf ((w :: rest).getD j []) ≠ keyOf ((w :: rest).getD i [])))).map
            (fun i => (w :: rest).getD i []) =
          ((List.range rest.length).filter (fun i =>
            decide (5 < (keyOf (rest.getD i [])).length ∧
              (∀ p ∈ pre2 ++ [w], keyOf p ≠ keyOf (rest.getD i [])) ∧
              ∀ j, j < i → keyOf (rest.getD j []) ≠ keyOf (rest.getD i [])))).map
            (fun i => rest.getD i []) := by
      intro pre2
      rw [List.filter_map, List.map_map]
      have hfun : ((fun i => (w :: rest).getD i []) ∘ Nat.succ) = fun i => rest.getD i [] := by
        funext i
        simp [List.getD_cons_succ]
      rw [hfun]
      have hfil : (List.range rest.length).filter
            ((fun i =>
              decide (5 < (keyOf ((w :: rest).getD i [])).length ∧
                (∀ p ∈ pre2, keyOf p ≠ keyOf ((w :: rest).getD i [])) ∧
                ∀ j, j < i → keyOf ((w :: rest).getD j []) ≠ keyOf ((w :: rest).getD i [])))
              ∘ Nat.succ) =
          (List.range rest.length).filter (fun i =>
            decide (5 < (keyOf (rest.getD i [])).length ∧
              (∀ p ∈ pre2 ++ [w], keyOf p ≠ keyOf (rest.getD i [])) ∧
              ∀ j, j < i → keyOf (rest.getD j []) ≠ keyOf (rest.getD i []))) := by
        apply List.filter_congr
        intro i _
        simp only [Function.comp_apply]
        rw [decide_eq_decide]
        simp only [List.getD_cons_succ, List.forall_mem_append, List.forall_mem_singleton]
        constructor
        · rintro ⟨hA, hB, hall⟩
          refine ⟨hA, ⟨hB, ?_⟩, fun j hj => ?_⟩
          · have h0 := hall 0 (Nat.succ_pos i)
            simpa using h0
          · have hs := hall (j + 1) (Nat.succ_lt_succ hj)
            simpa using hs
        · rintro ⟨hA, ⟨hB, hC⟩, hD⟩
          refine ⟨hA, hB, fun j hj => ?_⟩
          cases j with
          | zero => simpa using hC
          | succ j2 =>
            simp only [List.getD_cons_succ]
            exact hD j2 (Nat.lt_of_succ_lt_succ hj)
      rw [hfil]
    simp only [dedupFilter]
    rw [List.length_cons, List.range_succ_eq_map, List.filter_cons]
    by_cases hw : keyOf w ∉ seen ∧ 5 < (keyOf w).length
    · rw [if_pos hw]
      have hcond : 5 < (keyOf ((w :: rest).getD 0 [])).length ∧
          (∀ p ∈ pre, keyOf p ≠ keyOf ((w :: rest).getD 0 [])) ∧
          ∀ j, j < 0 → keyOf ((w :: rest).getD j []) ≠ keyOf ((w :: rest).getD 0 []) := by
        simp only [List.getD_cons_zero]
        exact ⟨hw.2, fun p hp hk => hw.1 ((hseen (keyOf w)).mpr ⟨p, hp, hk, hw.2⟩),
          fun j hj => absurd hj (Nat.not_lt_zero j)⟩
      rw [if_pos (decide_eq_true hcond), List.map_cons]
      have hseen2 : ∀ k, k ∈ keyOf w :: seen ↔
          ∃ p ∈ pre ++ [w], keyOf p = k ∧ 5 < k.length := by
        intro k
        simp only [List.mem_cons]
        constructor
        · rintro (hk | hk)
          · exact ⟨w, List.mem_append_right _ (List.mem_singleton_self w), hk.symm,
              by rw [hk]; exact hw.2⟩
          · obtain ⟨p, hp, h1, h2⟩ := (hseen k).mp hk
            exact ⟨p, List.mem_append_left _ hp, h1, h2⟩
        · rintro ⟨p, hp, h1, h2⟩
          rcases List.mem_append.mp hp with h | h
          · exact Or.inr ((hseen k).mpr ⟨p, h, h1, h2⟩)
          · rw [List.mem_singleton] at h
            subst h
            exact Or.inl h1.symm
      rw [dedupFilter_spec rest (pre ++ [w]) (keyOf w :: seen) hseen2, hshift pre]
      simp
    · rw [if_neg hw]
      have hcond : ¬(5 < (keyOf ((w :: rest).getD 0 [])).length ∧
          (∀ p ∈ pre, keyOf p ≠ keyOf ((w :: rest).getD 0 [])) ∧
          ∀ j, j < 0 → keyOf ((w :: rest).getD j []) ≠ keyOf ((w :: rest).getD 0 [])) := by
        simp only [List.getD_cons_zero]
        rintro ⟨hlen, hall, -⟩
        by_cases hmem : keyOf w ∈ seen
        · obtain ⟨p, hp, h1, -⟩ := (hseen (keyOf w)).mp hmem
          exact hall p hp h1
        · exact hw ⟨hmem, hlen⟩
      rw [if_neg (by simpa using hcond)]
      have hseen2 : ∀ k, k ∈ seen ↔ ∃ p ∈ pre ++ [w], keyOf p = k ∧ 5 < k.length := by
        intro k
        rw [hseen k]
        constructor
        · rintro ⟨p, hp, h1, h2⟩
          exact ⟨p, List.mem_append_left _ hp, h1, h2⟩
        · rintro ⟨p, hp, h1, h2⟩
          rcases List.mem_append.mp hp with h | h
          · exact ⟨p, h, h1, h2⟩
          · rw [List.mem_singleton] at h
            rw [h] at h1
            have hmem : keyOf w ∈ seen := by
              by_contra hmem
              exact hw ⟨hmem, by rw [h1]; exact h2⟩
            exact (hseen k).mp (by rw [← h1]; exact hmem)
      rw [dedupFilter_spec rest (pre ++ [w]) seen hseen2, hshift pre]

theorem dedupLoop_eq_dedupFilter :
    ∀ (lines seen : List Str),
      dedupLoop lines seen =
        dedupFilter (((lines.map stripWS).filter (fun l => decide (keepLine l))).map wordJoin) seen
  | [], seen => rfl
  | l :: ls, seen => by
    simp only [dedupLoop, List.map_cons, List.filter_cons]
    by_cases hk : keepLine (stripWS l)
    · rw [if_pos hk, if_pos (decide_eq_true hk), List.map_cons]
      simp only [dedupFilter]
      by_cases hd : keyOf (wordJoin (stripWS l)) ∉ seen ∧ 5 < (keyOf (wordJoin (stripWS l))).length
      · rw [if_pos hd, if_pos hd, dedupLoop_eq_dedupFilter ls]
      · rw [if_neg hd, if_neg hd, dedupLoop_eq_dedupFilter ls]
    · rw [if_neg hk, if_neg (by simpa using hk), dedupLoop_eq_dedupFilter ls]

/-- C8 (amended): during normalization a line that passed the skip filters is
kept iff its deduplication key — the whitespace-collapsed line lowercased with
`.,!?` stripped from BOTH ends — has length greater than 5 and no earlier
passing line has the same key; in particular lines whose lowercased forms differ
only in leading or trailing `.,!?` punctuation share one key and deduplicate to
a single occurrence. -/
theorem dedup_key_characterization (lines : List Str) :
    dedupLoop lines [] =
      ((List.range (((lines.map stripWS).filter (fun l => decide (keepLine l))).map
          wordJoin).length).filter (fun i =>
        decide (5 < (keyOf ((((lines.map stripWS).filter (fun l => decide (keepLine l))).map
            wordJoin).getD i [])).length ∧
          ∀ j, j < i →
            keyOf ((((lines.map stripWS).filter (fun l => decide (keepLine l))).map
              wordJoin).getD j []) ≠
            keyOf ((((lines.map stripWS).filter (fun l => decide (keepLine l))).map
              wordJoin).getD i [])))).map
        (fun i => (((lines.map stripWS).filter (fun l => decide (keepLine l))).map
          wordJoin).getD i []) := by
  rw [dedupLoop_eq_dedupFilter lines []]
  rw [dedupFilter_spec _ [] [] (fun k => by simp)]
  apply congrArg
  apply List.filter_congr
  intro i _
  rw [decide_eq_decide]
  simp

theorem containsTag_cons (c : Char) (rest : Str) :
    containsTag (c :: rest) =
      if c = '<' ∧ headIsGt rest = false ∧ '>' ∈ rest then true else containsTag rest := rfl

theorem containsTag_cons_false {c : Char} {rest : Str} :
    containsTag (c :: rest) = false ↔
      ¬(c = '<' ∧ headIsGt rest = false ∧ '>' ∈ rest) ∧ containsTag rest = false := by
  rw [containsTag_cons]
  by_cases h : c = '<' ∧ headIsGt rest = false ∧ '>' ∈ rest
  · simp [h]
  · simp [h]

theorem containsTag_tail {c : Char} {rest : Str} (h : containsTag (c :: rest) = false) :
    containsTag rest = false :=
  (containsTag_cons_false.mp h).2

theorem mem_dropThroughC {cl d : Char} : ∀ {l : Str}, d ∈ dropThroughC cl l → d ∈ l := by
  intro l
  induction l with
  | nil => intro h; simp [dropThroughC] at h
  | cons c rest ih =>
    unfold dropThroughC
    by_cases hc : c = cl
    · rw [if_pos hc]
      intro h
      exact List.mem_cons_of_mem c h
    · rw [if_neg hc]
      intro h
      exact List.mem_cons_of_mem c (ih h)

theorem dropThroughC_length_le (cl : Char) : ∀ l : Str, (dropThroughC cl l).length ≤ l.length := by
  intro l
  induction l with
  | nil => simp [dropThroughC]
  | cons c rest ih =>
    unfold dropThroughC
    by_cases hc : c = cl
    · rw [if_pos hc]; simp
    · rw [if_neg hc]; simp; omega

theorem containsTag_dropThroughC (cl : Char) :
    ∀ {l : Str}, containsTag l = false → containsTag (dropThroughC cl l) = false := by
  intro l
  induction l with
  | nil => intro h; simpa [dropThroughC] using h
  | cons c rest ih =>
    intro h
    unfold dropThroughC
    by_cases hc : c = cl
    · rw [if_pos hc]; exact containsTag_tail h
    · rw [if_neg hc]; exact ih (containsTag_tail h)

theorem mem_htmlSubF {d : Char} : ∀ (fuel : Nat) (l : Str), d ∈ htmlSubF fuel l → d ∈ l := by
  intro fuel
  induction fuel with
  | zero => intro l h; exact h
  | succ fuel ih =>
    intro l h
    match l with
    | [] => exact h
    | c :: rest =>
      unfold htmlSubF at h
      by_cases hg : c = '<' ∧ headIsGt rest = false ∧ '>' ∈ rest
      · rw [if_pos hg] at h
        exact List.mem_cons_of_mem c (mem_dropThroughC (ih _ h))
      · rw [if_neg hg] at h
        rcases List.mem_cons.mp h with h | h
        · exact h ▸ List.mem_cons_self c rest
        · exact List.mem_cons_of_mem c (ih rest h)

theorem headIsGt_htmlSubF {rest : Str} (fuel : Nat) (h : headIsGt rest = true) :
    headIsGt (htmlSubF fuel rest) = true := by
  match rest with
  | [] => simp [headIsGt] at h
  | c :: r2 =>
    simp only [headIsGt, beq_iff_eq] at h
    subst h
    match fuel with
    | 0 => rfl
    | fuel + 1 =>
      unfold htmlSubF
      rw [if_neg (by rintro ⟨hc, -, -⟩; cases hc)]
      rfl

theorem htmlSubF_noTag : ∀ (fuel : Nat) (l : Str), l.length ≤ fuel →
    containsTag (htmlSubF fuel l) = false := by
  intro fuel
  induction fuel with
  | zero =>
    intro l hl
    have : l = [] := List.eq_nil_of_length_eq_zero (Nat.le_zero.mp hl)
    subst this
    rfl
  | succ fuel ih =>
    intro l hl
    match l with
    | [] => rfl
    | c :: rest =>
      rw [List.length_cons] at hl
      unfold htmlSubF
      by_cases hg : c = '<' ∧ headIsGt rest = false ∧ '>' ∈ rest
      · rw [if_pos hg]
        exact ih _ (le_trans (dropThroughC_length_le '>' rest) (by omega))
      · rw [if_neg hg]
        rw [containsTag_cons_false]
        refine ⟨?_, ih rest (by omega)⟩
        rintro ⟨hc, hhd, hgt⟩
        apply hg
        refine ⟨hc, ?_, mem_htmlSubF fuel rest hgt⟩
        by_cases hr : headIsGt rest = true
        · rw [headIsGt_htmlSubF fuel hr] at hhd
          cases hhd
        · simpa using hr

theorem htmlSub_noTag (l : Str) : containsTag (htmlSub l) = false :=
  htmlSubF_noTag l.length l (Nat.le_refl _)

theorem lineGood_cons (c : Char) (rest : Str) (g : Bool) :
    lineGood (c :: rest) g =
      if c = '<' then
        if headIsGt rest then lineGood rest g
        else decide ('>' ∉ rest) && !g && lineGood rest g
      else lineGood rest g := rfl

theorem splitLines_ne_nil : ∀ s : Str, splitLines s ≠ [] := by
  intro s
  match s with
  | [] => simp [splitLines]
  | c :: rest =>
    unfold splitLines
    by_cases hc : c = '\n'
    · rw [if_pos hc]; simp
    · rw [if_neg hc]
      cases splitLines rest <;> simp

theorem mem_splitLines {d : Char} : ∀ {s : Str} {m : Str}, m ∈ splitLines s → d ∈ m → d ∈ s := by
  intro s
  induction s with
  | nil =>
    intro m hm hd
    simp [splitLines] at hm
    subst hm
    exact absurd hd (List.not_mem_nil d)
  | cons c rest ih =>
    intro m hm hd
    unfold splitLines at hm
    by_cases hc : c = '\n'
    · rw [if_pos hc] at hm
      rcases List.mem_cons.mp hm with h | h
      · subst h; exact absurd hd (List.not_mem_nil d)
      · exact List.mem_cons_of_mem c (ih h hd)
    · rw [if_neg hc] at hm
      cases heq : splitLines rest with
      | nil => exact absurd heq (splitLines_ne_nil rest)
      | cons h t =>
        rw [heq] at hm
        rcases List.mem_cons.mp hm with hm2 | hm2
        · subst hm2
          rcases List.mem_cons.mp hd with hd2 | hd2
          · exact hd2 ▸ List.mem_cons_self c rest
          · exact List.mem_cons_of_mem c (ih (heq ▸ List.mem_cons_self h t) hd2)
        · exact List.mem_cons_of_mem c (ih (heq ▸ List.mem_cons_of_mem h hm2) hd)

theorem anyGt_cons (m : Str) (ls : List Str) :
    anyGt (m :: ls) = (decide ('>' ∈ m) || anyGt ls) := by
  simp [anyGt]

theorem gt_of_anyGt_splitLines {s : Str} (h : anyGt (splitLines s) = true) : '>' ∈ s := by
  rcases List.any_eq_true.mp h with ⟨m, hm, hgt⟩
  exact mem_splitLines hm (of_decide_eq_true hgt)

theorem headIsGt_false_of_not_mem {l : Str} (h : '>' ∉ l) : headIsGt l = false := by
  cases l with
  | nil => rfl
  | cons d r =>
    simp only [headIsGt, beq_eq_false_iff_ne, ne_eq]
    intro hd
    exact h (hd ▸ List.mem_cons_self d r)

theorem linesGood_splitLines : ∀ {s : Str}, containsTag s = false →
    linesGood (splitLines s) = true := by
  intro s
  induction s with
  | nil => intro _; rfl
  | cons c rest ih =>
    intro h
    have htail : containsTag rest = false := containsTag_tail h
    unfold splitLines
    by_cases hc : c = '\n'
    · rw [if_pos hc]
      simp only [linesGood, Bool.and_eq_true]
      exact ⟨rfl, ih htail⟩
    · rw [if_neg hc]
      cases heq : splitLines rest with
      | nil => exact absurd heq (splitLines_ne_nil rest)
      | cons hl t =>
        have hih : lineGood hl (anyGt t) = true ∧ linesGood t = true := by
          have := ih htail
          rw [heq] at this
          simpa [linesGood] using this
        simp only [linesGood, Bool.and_eq_true]
        refine ⟨?_, hih.2⟩
        rw [lineGood_cons]
        by_cases hlt : c = '<'
        · rw [if_pos hlt]
          have hguard := (containsTag_cons_false.mp h).1
          have hcase : headIsGt rest = true ∨ '>' ∉ rest := by
            by_cases h1 : headIsGt rest = true
            · exact Or.inl h1
            · refine Or.inr (fun h2 => hguard ⟨hlt, by simpa using h1, h2⟩)
          rcases hcase with h1 | h1
          · have hhl : headIsGt hl = true := by
              cases rest with
              | nil => simp [headIsGt] at h1
              | cons d r2 =>
                simp only [headIsGt, beq_iff_eq] at h1
                subst h1
                unfold splitLines at heq
                rw [if_neg (by intro hh; cases hh)] at heq
                cases heq2 : splitLines r2 with
                | nil => exact absurd heq2 (splitLines_ne_nil r2)
                | cons h2 t2 =>
                  rw [heq2] at heq
                  have hhl2 : hl = '>' :: h2 := ((List.cons.injEq _ _ _ _).mp heq).1.symm
                  rw [hhl2]
                  rfl
            rw [if_pos hhl]
            exact hih.1
          · have hmem : '>' ∉ hl := fun hm =>
              h1 (mem_splitLines (heq ▸ List.mem_cons_self hl t) hm)
            have hanyt : anyGt t = false := by
              by_contra hany
              apply h1
              apply gt_of_anyGt_splitLines (s := rest)
              rw [heq, anyGt_cons]
              simp only [Bool.not_eq_false] at hany
              simp [hany]
            have hhd : headIsGt hl = false := headIsGt_false_of_not_mem hmem
            rw [if_neg (by simp [hhd] : ¬headIsGt hl = true)]
            have hlg : lineGood hl false = true := by
              have h2 := hih.1
              rw [hanyt] at h2
              exact h2
            rw [hanyt]
            simp only [Bool.not_false, Bool.and_true, Bool.and_eq_true, decide_eq_true_eq]
            exact ⟨hmem, hlg⟩
        · rw [if_neg hlt]
          exact hih.1

theorem lineGood_tail {c : Char} {rest : Str} {g : Bool}
    (h : lineGood (c :: rest) g = true) : lineGood rest g = true := by
  rw [lineGood_cons] at h
  by_cases h1 : c = '<'
  · rw [if_pos h1] at h
    by_cases h2 : headIsGt rest = true
    · rwa [if_pos h2] at h
    · rw [if_neg h2] at h
      simp only [Bool.and_eq_true] at h
      exact h.2
  · rwa [if_neg h1] at h

theorem lineGood_dropWhile (p : Char → Bool) {g : Bool} :
    ∀ {l : Str}, lineGood l g = true → lineGood (l.dropWhile p) g = true := by
  intro l
  induction l with
  | nil => intro h; exact h
  | cons c rest ih =>
    intro h
    rw [List.dropWhile_cons]
    by_cases hp : p c = true
    · rw [if_pos hp]
      exact ih (lineGood_tail h)
    · rw [if_neg hp]
      exact h

theorem lineGood_mono {g1 g2 : Bool} (hg : g2 = true → g1 = true) :
    ∀ {l : Str}, lineGood l g1 = true → lineGood l g2 = true := by
  intro l
  induction l with
  | nil => intro _; rfl
  | cons c rest ih =>
    intro h
    rw [lineGood_cons] at h ⊢
    by_cases h1 : c = '<'
    · rw [if_pos h1] at h ⊢
      by_cases h2 : headIsGt rest = true
      · rw [if_pos h2] at h ⊢
        exact ih h
      · rw [if_neg h2] at h ⊢
        simp only [Bool.and_eq_true, Bool.not_eq_true'] at h ⊢
        refine ⟨⟨h.1.1, ?_⟩, ih h.2⟩
        by_contra hg2
        simp only [Bool.not_eq_false] at hg2
        rw [hg hg2] at h
        simp at h
    · rw [if_neg h1] at h ⊢
      exact ih h

theorem headIsGt_of_all_ws {w : Str} (hw : ∀ c ∈ w, isWS c = true) :
    headIsGt w = false := by
  cases w with
  | nil => rfl
  | cons d r =>
    simp only [headIsGt, beq_eq_false_iff_ne, ne_eq]
    intro hd
    have := hw d (List.mem_cons_self d r)
    rw [hd] at this
    exact absurd this (by decide)

theorem lineGood_append_ws {w : Str} {g : Bool} (hw : ∀ c ∈ w, isWS c = true) :
    ∀ {a : Str}, lineGood (a ++ w) g = true → lineGood a g = true := by
  intro a
  induction a with
  | nil => intro _; rfl
  | cons c a2 ih =>
    intro h
    rw [List.cons_append] at h
    rw [lineGood_cons] at h ⊢
    by_cases h1 : c = '<'
    · rw [if_pos h1] at h ⊢
      cases a2 with
      | nil =>
        simp only [List.nil_append] at h
        rw [headIsGt_of_all_ws hw] at h
        simp only [Bool.false_eq_true, if_false, Bool.and_eq_true] at h
        have hgf : g = false := by
          cases g
          · rfl
          · exact absurd h.1.2 (by simp)
        subst hgf
        simp [lineGood, headIsGt]
      | cons d a3 =>
        have hhd : headIsGt ((d :: a3) ++ w) = headIsGt (d :: a3) := rfl
        rw [hhd] at h
        by_cases h2 : headIsGt (d :: a3) = true
        · rw [if_pos h2] at h ⊢
          exact ih h
        · rw [if_neg h2] at h ⊢
          simp only [Bool.and_eq_true, decide_eq_true_eq] at h ⊢
          refine ⟨⟨fun hm => h.1.1 (List.mem_append_left w hm), h.1.2⟩, ih h.2⟩
    · rw [if_neg h1] at h ⊢
      exact ih h

theorem dropTrailIf_cons (p : Char → Bool) (c : Char) (rest : Str) :
    dropTrailIf p (c :: rest) =
      match dropTrailIf p rest with
      | [] => if p c then [] else [c]
      | r => c :: r := rfl

theorem dropTrailIf_decomp (p : Char → Bool) :
    ∀ l : Str, ∃ w, l = dropTrailIf p l ++ w ∧ ∀ c ∈ w, p c = true := by
  intro l
  induction l with
  | nil => exact ⟨[], rfl, by simp⟩
  | cons c rest ih =>
    obtain ⟨w, hw1, hw2⟩ := ih
    cases hd : dropTrailIf p rest with
    | nil =>
      rw [hd, List.nil_append] at hw1
      by_cases hp : p c = true
      · refine ⟨c :: rest, ?_, ?_⟩
        · simp only [dropTrailIf_cons, hd, if_pos hp, List.nil_append]
        · intro d hdm
          rcases List.mem_cons.mp hdm with h | h
          · rw [h]; exact hp
          · exact hw2 d (hw1 ▸ h)
      · refine ⟨w, ?_, hw2⟩
        simp only [dropTrailIf_cons, hd, if_neg hp, List.singleton_append]
        rw [hw1]
    | cons r rs =>
      rw [hd] at hw1
      refine ⟨w, ?_, hw2⟩
      simp only [dropTrailIf_cons, hd, List.cons_append]
      simp [hw1]

theorem lineGood_stripWS {l : Str} {g : Bool} (h : lineGood l g = true) :
    lineGood (stripWS l) g = true := by
  have h1 : lineGood (l.dropWhile isWS) g = true := lineGood_dropWhile isWS h
  obtain ⟨w, hw1, hw2⟩ := dropTrailIf_decomp isWS (l.dropWhile isWS)
  rw [hw1] at h1
  exact lineGood_append_ws hw2 h1

theorem lineGood_takePart {b : Str} {g : Bool} (hb : headIsGt b = false) :
    ∀ {a : Str}, lineGood (a ++ b) g = true →
      lineGood a (decide ('>' ∈ b) || g) = true := by
  intro a
  induction a with
  | nil => intro _; rfl
  | cons c a2 ih =>
    intro h
    rw [List.cons_append] at h
    rw [lineGood_cons] at h ⊢
    by_cases h1 : c = '<'
    · rw [if_pos h1] at h ⊢
      cases a2 with
      | nil =>
        simp only [List.nil_append] at h
        rw [hb] at h
        simp only [Bool.false_eq_true, if_false, Bool.and_eq_true, decide_eq_true_eq] at h
        have hgf : g = false := by
          cases g
          · rfl
          · exact absurd h.1.2 (by simp)
        have hbm : '>' ∉ b := h.1.1
        subst hgf
        simp [lineGood, headIsGt, hbm]
      | cons d a3 =>
        have hhd : headIsGt ((d :: a3) ++ b) = headIsGt (d :: a3) := rfl
        rw [hhd] at h
        by_cases h2 : headIsGt (d :: a3) = true
        · rw [if_pos h2] at h ⊢
          exact ih h
        · rw [if_neg h2] at h ⊢
          simp only [Bool.and_eq_true, decide_eq_true_eq] at h ⊢
          refine ⟨⟨fun hm => h.1.1 (List.mem_append_left b hm), ?_⟩, ih h.2⟩
          have hgf : g = false := by
            cases g
            · rfl
            · exact absurd h.1.2 (by simp)
          have hbm : '>' ∉ b := fun hm => h.1.1 (List.mem_append_right _ hm)
          subst hgf
          simp [hbm]
    · rw [if_neg h1] at h ⊢
      exact ih h

theorem mem_wordsWSF {d : Char} :
    ∀ (fuel : Nat) (l : Str) (w : Str), w ∈ wordsWSF fuel l → d ∈ w → d ∈ l := by
  intro fuel
  induction fuel with
  | zero => intro l w hw; simp [wordsWSF] at hw
  | succ fuel ih =>
    intro l w hw hd
    match l with
    | [] => simp [wordsWSF] at hw
    | c :: rest =>
      unfold wordsWSF at hw
      by_cases hc : isWS c = true
      · rw [if_pos hc] at hw
        exact List.mem_cons_of_mem c (ih rest w hw hd)
      · rw [if_neg hc] at hw
        rcases List.mem_cons.mp hw with h | h
        · subst h
          rcases List.mem_cons.mp hd with h2 | h2
          · exact h2 ▸ List.mem_cons_self c rest
          · exact List.mem_cons_of_mem c ((List.takeWhile_sublist _).subset h2)
        · exact List.mem_cons_of_mem c
            ((List.dropWhile_sublist _).subset (ih _ w h hd))

theorem wordsWSF_words_ok :
    ∀ (fuel : Nat) (l : Str) (w : Str), w ∈ wordsWSF fuel l →
      w ≠ [] ∧ ∀ c ∈ w, isWS c = false := by
  intro fuel
  induction fuel with
  | zero => intro l w hw; simp [wordsWSF] at hw
  | succ fuel ih =>
    intro l w hw
    match l with
    | [] => simp [wordsWSF] at hw
    | c :: rest =>
      unfold wordsWSF at hw
      by_cases hc : isWS c = true
      · rw [if_pos hc] at hw
        exact ih rest w hw
      · rw [if_neg hc] at hw
        rcases List.mem_cons.mp hw with h | h
        · subst h
          refine ⟨by simp, ?_⟩
          intro d hd
          rcases List.mem_cons.mp hd with h2 | h2
          · rw [h2]; simpa using hc
          · have := List.mem_takeWhile_imp h2
            simpa using this
        · exact ih _ w h

theorem head_dropWhile_false (p : Char → Bool) :
    ∀ (l : Str) {d : Char} {r : Str}, l.dropWhile p = d :: r → p d = false := by
  intro l
  induction l with
  | nil => intro d r h; simp [List.dropWhile] at h
  | cons c rest ih =>
    intro d r h
    rw [List.dropWhile_cons] at h
    by_cases hc : p c = true
    · rw [if_pos hc] at h
      exact ih h
    · rw [if_neg hc] at h
      have : c = d := (List.cons.injEq _ _ _ _ ▸ h).1
      rw [← this]
      simpa using hc

theorem gt_mem_wordsWSF :
    ∀ (fuel : Nat) (l : Str), l.length ≤ fuel → '>' ∈ l →
      ∃ w ∈ wordsWSF fuel l, '>' ∈ w := by
  intro fuel
  induction fuel with
  | zero =>
    intro l hl hm
    have : l = [] := List.eq_nil_of_length_eq_zero (Nat.le_zero.mp hl)
    subst this
    exact absurd hm (List.not_mem_nil _)
  | succ fuel ih =>
    intro l hl hm
    match l with
    | [] => exact absurd hm (List.not_mem_nil _)
    | c :: rest =>
      rw [List.length_cons] at hl
      unfold wordsWSF
      by_cases hc : isWS c = true
      · rw [if_pos hc]
        have hne : '>' ≠ c := by
          intro h
          rw [← h] at hc
          exact absurd hc (by decide)
        have hmr : '>' ∈ rest := by
          rcases List.mem_cons.mp hm with h | h
          · exact absurd h hne
          · exact h
        exact ih rest (by omega) hmr
      · rw [if_neg hc]
        rcases List.mem_cons.mp hm with h | h
        · refine ⟨c :: rest.takeWhile (fun d => !isWS d), List.mem_cons_self _ _, ?_⟩
          exact h ▸ List.mem_cons_self c _
        · rw [← List.takeWhile_append_dropWhile (p := fun d => !isWS d) (l := rest)] at h
          rcases List.mem_append.mp h with h2 | h2
          · exact ⟨c :: rest.takeWhile (fun d => !isWS d), List.mem_cons_self _ _,
              List.mem_cons_of_mem c h2⟩
          · obtain ⟨w, hw1, hw2⟩ := ih (rest.dropWhile (fun d => !isWS d))
              (le_trans (List.dropWhile_sublist _).length_le (by omega)) h2
            exact ⟨w, List.mem_cons_of_mem _ hw1, hw2⟩

theorem anyGt_wordsWSF {fuel : Nat} {l : Str} (hl : l.length ≤ fuel) :
    anyGt (wordsWSF fuel l) = decide ('>' ∈ l) := by
  by_cases h : '>' ∈ l
  · obtain ⟨w, hw1, hw2⟩ := gt_mem_wordsWSF fuel l hl h
    have h1 : anyGt (wordsWSF fuel l) = true :=
      List.any_eq_true.mpr ⟨w, hw1, decide_eq_true hw2⟩
    rw [h1, decide_eq_true h]
  · have h1 : anyGt (wordsWSF fuel l) = false := by
      by_contra hany
      simp only [Bool.not_eq_false] at hany
      rcases List.any_eq_true.mp hany with ⟨w, hw1, hw2⟩
      exact h (mem_wordsWSF fuel l w hw1 (of_decide_eq_true hw2))
    rw [h1, decide_eq_false h]

theorem headIsGt_dropWhile_nonWS (rest : Str) :
    headIsGt (rest.dropWhile (fun d => !isWS d)) = false := by
  cases hdr : rest.dropWhile (fun d => !isWS d) with
  | nil => rfl
  | cons d r =>
    have hd := head_dropWhile_false (fun d => !isWS d) rest hdr
    simp only [Bool.not_eq_false'] at hd
    simp only [headIsGt, beq_eq_false_iff_ne, ne_eq]
    intro hgt
    rw [hgt] at hd
    exact absurd hd (by decide)

theorem piecesGood_wordsWSF :
    ∀ (fuel : Nat) (l : Str) (g : Bool), l.length ≤ fuel → lineGood l g = true →
      piecesGood (wordsWSF fuel l) g = true := by
  intro fuel
  induction fuel with
  | zero => intro l g _ _; rfl
  | succ fuel ih =>
    intro l g hl h
    match l with
    | [] => rfl
    | c :: rest =>
      rw [List.length_cons] at hl
      unfold wordsWSF
      by_cases hc : isWS c = true
      · rw [if_pos hc]
        exact ih rest g (by omega) (lineGood_tail h)
      · rw [if_neg hc]
        simp only [piecesGood, Bool.and_eq_true]
        constructor
        · rw [anyGt_wordsWSF (le_trans (List.dropWhile_sublist _).length_le (by omega))]
          apply lineGood_takePart (headIsGt_dropWhile_nonWS rest)
          have hsplit : (c :: rest.takeWhile (fun d => !isWS d)) ++
              rest.dropWhile (fun d => !isWS d) = c :: rest := by
            rw [List.cons_append, List.takeWhile_append_dropWhile]
          rw [hsplit]
          exact h
        · exact ih _ g (le_trans (List.dropWhile_sublist _).length_le (by omega))
            (lineGood_dropWhile _ (lineGood_tail h))

theorem lineGood_join_pair {t : Str} {g : Bool} (ht : lineGood t g = true) :
    ∀ {p : Str}, lineGood p (decide ('>' ∈ t) || g) = true →
      lineGood (p ++ ' ' :: t) g = true := by
  intro p
  induction p with
  | nil =>
    intro _
    rw [List.nil_append]
    have : lineGood (' ' :: t) g = lineGood t g := by
      rw [lineGood_cons, if_neg (by decide : ¬(' ' = '<'))]
    rw [this]
    exact ht
  | cons c p2 ih =>
    intro h
    rw [List.cons_append]
    rw [lineGood_cons] at h ⊢
    by_cases h1 : c = '<'
    · rw [if_pos h1] at h ⊢
      cases p2 with
      | nil =>
        simp only [headIsGt] at h
        simp only [Bool.false_eq_true, if_false, Bool.and_eq_true, decide_eq_true_eq,
          Bool.not_eq_true', Bool.or_eq_false_iff, decide_eq_false_iff_not] at h
        have hnt : '>' ∉ t := h.1.2.1
        have hgf : g = false := h.1.2.2
        subst hgf
        have hhd : headIsGt ([] ++ ' ' :: t) = false := rfl
        rw [List.nil_append] at hhd ⊢
        rw [hhd]
        simp only [Bool.false_eq_true, if_false, Bool.and_eq_true, decide_eq_true_eq,
          Bool.not_eq_true']
        refine ⟨⟨?_, trivial⟩, ?_⟩
        · intro hm
          rcases List.mem_cons.mp hm with h2 | h2
          · cases h2
          · exact hnt h2
        · have : lineGood (' ' :: t) false = lineGood t false := by
            rw [lineGood_cons, if_neg (by decide : ¬(' ' = '<'))]
          rw [this]
          exact ht
      | cons d p3 =>
        have hhd : headIsGt ((d :: p3) ++ ' ' :: t) = headIsGt (d :: p3) := rfl
        rw [hhd]
        by_cases h2 : headIsGt (d :: p3) = true
        · rw [if_pos h2] at h ⊢
          exact ih h
        · rw [if_neg h2] at h ⊢
          simp only [Bool.and_eq_true, decide_eq_true_eq, Bool.not_eq_true',
            Bool.or_eq_false_iff, decide_eq_false_iff_not] at h
          have hnp : '>' ∉ (d :: p3) := h.1.1
          have hnt : '>' ∉ t := h.1.2.1
          have hgf : g = false := h.1.2.2
          subst hgf
          simp only [Bool.and_eq_true, decide_eq_true_eq, Bool.not_eq_true']
          refine ⟨⟨?_, trivial⟩, ih h.2⟩
          intro hm
          rcases List.mem_append.mp hm with h3 | h3
          · exact hnp h3
          · rcases List.mem_cons.mp h3 with h4 | h4
            · cases h4
            · exact hnt h4
    · rw [if_neg h1] at h ⊢
      exact ih h

theorem joinSpace_cons_cons (p q : Str) (ps : List Str) :
    joinSpace (p :: q :: ps) = p ++ ' ' :: joinSpace (q :: ps) := rfl

theorem gt_mem_joinSpace : ∀ P : List Str, '>' ∈ joinSpace P ↔ ∃ p ∈ P, '>' ∈ p
  | [] => by simp [joinSpace]
  | [p] => by simp [joinSpace]
  | p :: q :: ps => by
    rw [joinSpace_cons_cons, List.mem_append, List.mem_cons]
    rw [gt_mem_joinSpace (q :: ps)]
    constructor
    · rintro (h | h | h)
      · exact ⟨p, List.mem_cons_self _ _, h⟩
      · cases h
      · obtain ⟨r, hr1, hr2⟩ := h
        exact ⟨r, List.mem_cons_of_mem p hr1, hr2⟩
    · rintro ⟨r, hr1, hr2⟩
      rcases List.mem_cons.mp hr1 with h | h
      · exact Or.inl (h ▸ hr2)
      · exact Or.inr (Or.inr ⟨r, h, hr2⟩)

theorem decide_gt_joinSpace (P : List Str) : decide ('>' ∈ joinSpace P) = anyGt P := by
  by_cases h : '>' ∈ joinSpace P
  · obtain ⟨p, hp1, hp2⟩ := (gt_mem_joinSpace P).mp h
    rw [decide_eq_true h]
    exact (List.any_eq_true.mpr ⟨p, hp1, decide_eq_true hp2⟩).symm
  · rw [decide_eq_false h]
    by_cases hh : anyGt P = true
    · rcases List.any_eq_true.mp hh with ⟨p, hp1, hp2⟩
      exact absurd ((gt_mem_joinSpace P).mpr ⟨p, hp1, of_decide_eq_true hp2⟩) h
    · rw [Bool.not_eq_true] at hh
      rw [hh]

theorem piecesGood_join :
    ∀ (P : List Str) {g : Bool}, piecesGood P g = true → lineGood (joinSpace P) g = true
  | [], g => by intro _; rfl
  | [p], g => by
    intro h
    simp only [piecesGood, anyGt, List.any_nil, Bool.false_or, Bool.and_true] at h
    exact h
  | p :: q :: ps, g => by
    intro h
    simp only [piecesGood, Bool.and_eq_true] at h
    rw [joinSpace_cons_cons]
    apply lineGood_join_pair
    · exact piecesGood_join (q :: ps) (by simp [piecesGood, h.2.1, h.2.2])
    · rw [decide_gt_joinSpace]
      exact h.1

theorem linesGood_piecesGood : ∀ {P : List Str}, linesGood P = true → piecesGood P false = true := by
  intro P
  induction P with
  | nil => intro _; rfl
  | cons l ls ih =>
    intro h
    simp only [linesGood, Bool.and_eq_true] at h
    simp only [piecesGood, Bool.or_false, Bool.and_eq_true]
    exact ⟨h.1, ih h.2⟩

theorem lineGood_false_containsTag : ∀ l : Str, lineGood l false = !containsTag l := by
  intro l
  induction l with
  | nil => rfl
  | cons c rest ih =>
    rw [lineGood_cons, containsTag_cons]
    by_cases h1 : c = '<'
    · by_cases h2 : headIsGt rest = true
      · have hg : ¬(c = '<' ∧ headIsGt rest = false ∧ '>' ∈ rest) := by simp [h2]
        rw [if_pos h1, if_pos h2, if_neg hg]
        exact ih
      · have h2f : headIsGt rest = false := by simpa using h2
        by_cases h3 : '>' ∈ rest
        · have hg : c = '<' ∧ headIsGt rest = false ∧ '>' ∈ rest := ⟨h1, h2f, h3⟩
          rw [if_pos h1, if_neg h2, if_pos hg]
          simp [h3]
        · have hg : ¬(c = '<' ∧ headIsGt rest = false ∧ '>' ∈ rest) := by simp [h3]
          rw [if_pos h1, if_neg h2, if_neg hg]
          simp [h3, ih]
    · have hg : ¬(c = '<' ∧ headIsGt rest = false ∧ '>' ∈ rest) := by simp [h1]
      rw [if_neg h1, if_neg hg]
      exact ih

theorem mem_dropTrailIf {p : Char → Bool} {d : Char} {l : Str}
    (h : d ∈ dropTrailIf p l) : d ∈ l := by
  obtain ⟨w, hw1, -⟩ := dropTrailIf_decomp p l
  rw [hw1]
  exact List.mem_append_left w h

theorem gt_of_wordJoin {l : Str} (h : '>' ∈ wordJoin (stripWS l)) : '>' ∈ l := by
  unfold wordJoin at h
  obtain ⟨w, hw1, hw2⟩ := (gt_mem_joinSpace _).mp h
  have h1 : '>' ∈ stripWS l := mem_wordsWSF _ _ w hw1 hw2
  unfold stripWS at h1
  exact (List.dropWhile_sublist _).subset (mem_dropTrailIf h1)

theorem mem_dedupLoop :
    ∀ (lines seen : List Str) (w : Str), w ∈ dedupLoop lines seen →
      ∃ l ∈ lines, w = wordJoin (stripWS l)
  | [], seen, w => by intro h; simp [dedupLoop] at h
  | l :: ls, seen, w => by
    intro h
    unfold dedupLoop at h
    by_cases hk : keepLine (stripWS l)
    · rw [if_pos hk] at h
      by_cases hd : keyOf (wordJoin (stripWS l)) ∉ seen ∧ 5 < (keyOf (wordJoin (stripWS l))).length
      · rw [if_pos hd] at h
        rcases List.mem_cons.mp h with h2 | h2
        · exact ⟨l, List.mem_cons_self l ls, h2⟩
        · obtain ⟨l2, hl2, hw⟩ := mem_dedupLoop ls _ w h2
          exact ⟨l2, List.mem_cons_of_mem l hl2, hw⟩
      · rw [if_neg hd] at h
        obtain ⟨l2, hl2, hw⟩ := mem_dedupLoop ls seen w h
        exact ⟨l2, List.mem_cons_of_mem l hl2, hw⟩
    · rw [if_neg hk] at h
      obtain ⟨l2, hl2, hw⟩ := mem_dedupLoop ls seen w h
      exact ⟨l2, List.mem_cons_of_mem l hl2, hw⟩

theorem anyGt_dedupLoop {ls seen : List Str} (h : anyGt (dedupLoop ls seen) = true) :
    anyGt ls = true := by
  rcases List.any_eq_true.mp h with ⟨w, hw1, hw2⟩
  obtain ⟨l, hl1, hl2⟩ := mem_dedupLoop ls seen w hw1
  refine List.any_eq_true.mpr ⟨l, hl1, decide_eq_true ?_⟩
  apply gt_of_wordJoin
  rw [← hl2]
  exact of_decide_eq_true hw2

theorem lineGood_wordJoin {l : Str} {g : Bool} (h : lineGood l g = true) :
    lineGood (wordJoin l) g = true := by
  unfold wordJoin wordsWS
  exact piecesGood_join _ (piecesGood_wordsWSF l.length l g (Nat.le_refl _) h)

theorem linesGood_dedupLoop :
    ∀ (lines seen : List Str), linesGood lines = true →
      linesGood (dedupLoop lines seen) = true
  | [], seen => by intro _; rfl
  | l :: ls, seen => by
    intro h
    simp only [linesGood, Bool.and_eq_true] at h
    unfold dedupLoop
    by_cases hk : keepLine (stripWS l)
    · rw [if_pos hk]
      by_cases hd : keyOf (wordJoin (stripWS l)) ∉ seen ∧ 5 < (keyOf (wordJoin (stripWS l))).length
      · rw [if_pos hd]
        simp only [linesGood, Bool.and_eq_true]
        refine ⟨?_, linesGood_dedupLoop ls _ h.2⟩
        exact lineGood_mono (fun hg => anyGt_dedupLoop hg)
          (lineGood_wordJoin (lineGood_stripWS h.1))
      · rw [if_neg hd]
        exact linesGood_dedupLoop ls seen h.2
    · rw [if_neg hk]
      exact linesGood_dedupLoop ls seen h.2

theorem containsTag_dropWhile (p : Char → Bool) :
    ∀ {l : Str}, containsTag l = false → containsTag (l.dropWhile p) = false := by
  intro l
  induction l with
  | nil => intro h; exact h
  | cons c rest ih =>
    intro h
    rw [List.dropWhile_cons]
    by_cases hp : p c = true
    · rw [if_pos hp]
      exact ih (containsTag_tail h)
    · rw [if_neg hp]
      exact h

theorem dropTrailIf_gt_head (r2 : Str) :
    ∃ t, dropTrailIf isWS ('>' :: r2) = '>' :: t := by
  rw [dropTrailIf_cons]
  cases dropTrailIf isWS r2 with
  | nil =>
    refine ⟨[], ?_⟩
    rw [if_neg (by decide : ¬isWS '>' = true)]
  | cons r rs => exact ⟨r :: rs, rfl⟩

theorem containsTag_dropTrailIf :
    ∀ {l : Str}, containsTag l = false → containsTag (dropTrailIf isWS l) = false := by
  intro l
  induction l with
  | nil => intro h; exact h
  | cons c rest ih =>
    intro h
    rw [dropTrailIf_cons]
    cases hd : dropTrailIf isWS rest with
    | nil =>
      by_cases hp : isWS c = true
      · rw [if_pos hp]
        rfl
      · rw [if_neg hp]
        rw [containsTag_cons_false]
        exact ⟨by rintro ⟨-, -, hm⟩; exact absurd hm (List.not_mem_nil _), rfl⟩
    | cons r rs =>
      rw [containsTag_cons_false]
      refine ⟨?_, hd ▸ ih (containsTag_tail h)⟩
      rintro ⟨hc, hhd, hgt⟩
      have hguard := (containsTag_cons_false.mp h).1
      apply hguard
      refine ⟨hc, ?_, mem_dropTrailIf (hd ▸ hgt)⟩
      by_cases hr : headIsGt rest = true
      · cases rest with
        | nil => simp [headIsGt] at hr
        | cons d r2 =>
          simp only [headIsGt, beq_iff_eq] at hr
          subst hr
          obtain ⟨t, ht⟩ := dropTrailIf_gt_head r2
          rw [ht] at hd
          have hrg : r = '>' := ((List.cons.injEq _ _ _ _).mp hd).1.symm
          rw [hrg] at hhd
          simp [headIsGt] at hhd
      · simpa using hr

theorem mem_collapseWS {x : Char} :
    ∀ {l : Str}, x ∈ collapseWS l → x ∈ l ∨ x = ' ' := by
  intro l
  induction l using collapseWS.induct with
  | case1 =>
    intro h
    simp [collapseWS] at h
  | case2 c hc =>
    intro h
    unfold collapseWS at h
    rw [if_pos hc] at h
    exact Or.inr (List.mem_singleton.mp h)
  | case3 c hc =>
    intro h
    unfold collapseWS at h
    rw [if_neg hc] at h
    exact Or.inl h
  | case4 c d rest hws ih =>
    intro h
    unfold collapseWS at h
    rw [if_pos hws] at h
    rcases ih h with h2 | h2
    · exact Or.inl (List.mem_cons_of_mem c h2)
    · exact Or.inr h2
  | case5 c d rest hws ih =>
    intro h
    unfold collapseWS at h
    rw [if_neg hws] at h
    rcases List.mem_cons.mp h with h2 | h2
    · by_cases hc : isWS c = true
      · rw [if_pos hc] at h2
        exact Or.inr h2
      · rw [if_neg hc] at h2
        exact Or.inl (h2 ▸ List.mem_cons_self c _)
    · rcases ih h2 with h3 | h3
      · exact Or.inl (List.mem_cons_of_mem c h3)
      · exact Or.inr h3

theorem collapseWS_gt_head (rest : Str) :
    ∃ t, collapseWS ('>' :: rest) = '>' :: t := by
  cases rest with
  | nil =>
    refine ⟨[], ?_⟩
    show (if isWS '>' = true then [' '] else ['>']) = ['>']
    rw [if_neg (by decide : ¬isWS '>' = true)]
  | cons d r2 =>
    unfold collapseWS
    rw [if_neg (by simp [(by decide : isWS '>' = false)] : ¬(isWS '>' && isWS d) = true)]
    rw [if_neg (by decide : ¬isWS '>' = true)]
    exact ⟨collapseWS (d :: r2), rfl⟩

theorem containsTag_collapseWS :
    ∀ {l : Str}, containsTag l = false → containsTag (collapseWS l) = false := by
  intro l
  induction l using collapseWS.induct with
  | case1 => intro h; exact h
  | case2 c hc =>
    intro _
    unfold collapseWS
    rw [if_pos hc]
    rfl
  | case3 c hc =>
    intro _
    unfold collapseWS
    rw [if_neg hc]
    rw [containsTag_cons_false]
    exact ⟨by rintro ⟨-, -, hm⟩; exact absurd hm (List.not_mem_nil _), rfl⟩
  | case4 c d rest hws ih =>
    intro h
    unfold collapseWS
    rw [if_pos hws]
    exact ih (containsTag_tail h)
  | case5 c d rest hws ih =>
    intro h
    unfold collapseWS
    rw [if_neg hws]
    rw [containsTag_cons_false]
    refine ⟨?_, ih (containsTag_tail h)⟩
    rintro ⟨hc, hhd, hgt⟩
    have hcc : c = '<' := by
      by_cases hw : isWS c = true
      · rw [if_pos hw] at hc
        cases hc
      · rwa [if_neg hw] at hc
    have hguard := (containsTag_cons_false.mp h).1
    apply hguard
    refine ⟨hcc, ?_, ?_⟩
    · by_cases hr : headIsGt (d :: rest) = true
      · simp only [headIsGt, beq_iff_eq] at hr
        subst hr
        obtain ⟨t, ht⟩ := collapseWS_gt_head rest
        rw [ht] at hhd
        simp [headIsGt] at hhd
      · simpa using hr
    · rcases mem_collapseWS hgt with h2 | h2
      · exact h2
      · cases h2

theorem mem_lazySubF {op cl x : Char} :
    ∀ (fuel : Nat) (l : Str), x ∈ lazySubF op cl fuel l → x ∈ l := by
  intro fuel
  induction fuel with
  | zero => intro l h; exact h
  | succ fuel ih =>
    intro l h
    match l with
    | [] => exact h
    | c :: rest =>
      unfold lazySubF at h
      by_cases hg : c = op ∧ closeBefNl cl rest = true
      · rw [if_pos hg] at h
        exact List.mem_cons_of_mem c (mem_dropThroughC (ih _ h))
      · rw [if_neg hg] at h
        rcases List.mem_cons.mp h with h2 | h2
        · exact h2 ▸ List.mem_cons_self c rest
        · exact List.mem_cons_of_mem c (ih rest h2)

theorem lazySubF_gt_head {op cl : Char} (hop : op ≠ '>') (fuel : Nat) (r2 : Str) :
    ∃ t, lazySubF op cl fuel ('>' :: r2) = '>' :: t := by
  cases fuel with
  | zero => exact ⟨r2, rfl⟩
  | succ fuel =>
    unfold lazySubF
    rw [if_neg (by rintro ⟨hc, -⟩; exact hop hc.symm)]
    exact ⟨lazySubF op cl fuel r2, rfl⟩

theorem containsTag_lazySubF {op cl : Char} (hop2 : op ≠ '>') :
    ∀ (fuel : Nat) (l : Str), containsTag l = false →
      containsTag (lazySubF op cl fuel l) = false := by
  intro fuel
  induction fuel with
  | zero => intro l h; exact h
  | succ fuel ih =>
    intro l h
    match l with
    | [] => exact h
    | c :: rest =>
      unfold lazySubF
      by_cases hg : c = op ∧ closeBefNl cl rest = true
      · rw [if_pos hg]
        exact ih _ (containsTag_dropThroughC cl (containsTag_tail h))
      · rw [if_neg hg]
        rw [containsTag_cons_false]
        refine ⟨?_, ih rest (containsTag_tail h)⟩
        rintro ⟨hc, hhd, hgt⟩
        have hguard := (containsTag_cons_false.mp h).1
        apply hguard
        refine ⟨hc, ?_, mem_lazySubF fuel rest hgt⟩
        by_cases hr : headIsGt rest = true
        · cases rest with
          | nil => simp [headIsGt] at hr
          | cons d r2 =>
            simp only [headIsGt, beq_iff_eq] at hr
            subst hr
            obtain ⟨t, hts⟩ := lazySubF_gt_head hop2 fuel r2
            rw [hts] at hhd
            simp [headIsGt] at hhd
        · simpa using hr

theorem containsTag_stripWS {l : Str} (h : containsTag l = false) :
    containsTag (stripWS l) = false :=
  containsTag_dropTrailIf (containsTag_dropWhile isWS h)

theorem containsTag_cleanSubtitleText (x : Str) :
    containsTag (cleanSubtitleText x) = false := by
  have h1 : containsTag (htmlSub (tsSub x)) = false := htmlSub_noTag _
  have h2 := linesGood_splitLines h1
  have h3 := linesGood_dedupLoop (splitLines (htmlSub (tsSub x))) [] h2
  have h4 := piecesGood_join _ (linesGood_piecesGood h3)
  rw [lineGood_false_containsTag] at h4
  have h5 : containsTag (joinSpace (dedupLoop (splitLines (htmlSub (tsSub x))) [])) = false := by
    cases hh : containsTag (joinSpace (dedupLoop (splitLines (htmlSub (tsSub x))) []))
    · rfl
    · rw [hh] at h4
      exact absurd h4 (by simp)
  show containsTag (stripWS (lazySub '(' ')' (lazySub '[' ']' (collapseWS
    (joinSpace (dedupLoop (splitLines (htmlSub (tsSub x))) [])))))) = false
  exact containsTag_stripWS (containsTag_lazySubF (by decide) _ _
    (containsTag_lazySubF (by decide) _ _ (containsTag_collapseWS h5)))

theorem containsTag_iff (l : Str) :
    containsTag l = true ↔
      ∃ a m b, l = a ++ '<' :: (m ++ '>' :: b) ∧ m ≠ [] ∧ '>' ∉ m := by
  constructor
  · intro h
    induction l with
    | nil => simp [containsTag] at h
    | cons c rest ih =>
      rw [containsTag_cons] at h
      by_cases hg : c = '<' ∧ headIsGt rest = false ∧ '>' ∈ rest
      · obtain ⟨hc, hhd, hgt⟩ := hg
        subst hc
        refine ⟨[], rest.takeWhile (fun d => !(d == '>')),
          (rest.dropWhile (fun d => !(d == '>'))).tail, ?_, ?_, ?_⟩
        · have hdne : rest.dropWhile (fun d => !(d == '>')) ≠ [] := by
            intro hnil
            have := List.dropWhile_eq_nil_iff.mp hnil '>' hgt
            simp at this
          cases hdw : rest.dropWhile (fun d => !(d == '>')) with
          | nil => exact absurd hdw hdne
          | cons d bs =>
            have hd := head_dropWhile_false _ rest hdw
            simp only [Bool.not_eq_false', beq_iff_eq] at hd
            subst hd
            rw [List.nil_append]
            show '<' :: rest = '<' :: (rest.takeWhile (fun d => !(d == '>')) ++ '>' :: bs)
            have hsplit := List.takeWhile_append_dropWhile
              (p := fun d => !(d == '>')) (l := rest)
            rw [hdw] at hsplit
            rw [hsplit]
        · cases rest with
          | nil => exact absurd hgt (List.not_mem_nil _)
          | cons e r2 =>
            simp only [headIsGt, beq_eq_false_iff_ne, ne_eq] at hhd
            rw [List.takeWhile_cons]
            rw [if_pos (by simpa using hhd)]
            simp
        · intro hm
          have := List.mem_takeWhile_imp hm
          simp at this
      · rw [if_neg hg] at h
        obtain ⟨a, m, b, heq, hm1, hm2⟩ := ih h
        exact ⟨c :: a, m, b, by rw [heq, List.cons_append], hm1, hm2⟩
  · rintro ⟨a, m, b, heq, hm1, hm2⟩
    subst heq
    induction a with
    | nil =>
      rw [List.nil_append, containsTag_cons]
      rw [if_pos ?_]
      refine ⟨rfl, ?_, ?_⟩
      · cases m with
        | nil => exact absurd rfl hm1
        | cons d m2 =>
          rw [List.cons_append]
          simp only [headIsGt, beq_eq_false_iff_ne, ne_eq]
          intro hd
          exact hm2 (hd ▸ List.mem_cons_self d m2)
      · exact List.mem_append_right m (List.mem_cons_self '>' b)
    | cons c a2 ih =>
      rw [List.cons_append, containsTag_cons]
      by_cases hg : c = '<' ∧ headIsGt (a2 ++ '<' :: (m ++ '>' :: b)) = false ∧
          '>' ∈ a2 ++ '<' :: (m ++ '>' :: b)
      · rw [if_pos hg]
      · rw [if_neg hg]
        exact ih

/-- C2: the text produced by `clean_subtitle_text` — and hence the text of every
found caption result of `get_youtube_subtitles` — contains no substring matching
`HTML_TAG_REGEX` = `<[^>]+>` (no `<`, then one or more non-`>` characters, then
`>`). -/
theorem clean_subtitle_text_no_html_tags :
    (∀ x : Str, ¬∃ a m b, cleanSubtitleText x = a ++ '<' :: (m ++ '>' :: b) ∧
      m ≠ [] ∧ '>' ∉ m) ∧
    (∀ (env : YtEnv) (language : Str) (useWhisper : Bool) (t : Str),
      (getYoutubeSubtitles env language useWhisper).1 = some t →
      ¬∃ a m b, t = a ++ '<' :: (m ++ '>' :: b) ∧ m ≠ [] ∧ '>' ∉ m) := by
  have hmain : ∀ x : Str, ¬∃ a m b, cleanSubtitleText x = a ++ '<' :: (m ++ '>' :: b) ∧
      m ≠ [] ∧ '>' ∉ m := by
    intro x hex
    have h := (containsTag_iff _).mpr hex
    rw [containsTag_cleanSubtitleText x] at h
    cases h
  refine ⟨hmain, ?_⟩
  intro env language uw t ht
  have hteq : t = cleanSubtitleText env.content := by
    unfold getYoutubeSubtitles at ht
    by_cases hdl : env.downloadOk = true
    · rw [if_pos hdl] at ht
      cases hsel : selectBest (subtitleLangsOf env language uw)
          (manualOf (filteredFiles env)) (autoOf (filteredFiles env)) with
      | none =>
        rw [hsel] at ht
        cases ht
      | some fl =>
        rw [hsel] at ht
        dsimp only at ht
        by_cases hrd : env.readOk = true
        · rw [if_pos hrd] at ht
          exact (Option.some.inj ht).symm
        · rw [if_neg hrd] at ht
          cases ht
    · rw [if_neg hdl] at ht
      cases ht
  rw [hteq]
  exact hmain env.content

/-- C2 witness: at a concrete environment the caption path yields
`some (cleanSubtitleText content)`, which has no HTML-tag match. -/
theorem clean_subtitle_text_no_html_tags_witness :
    (getYoutubeSubtitles envMetaFail "auto".toList false).1
      = some (cleanSubtitleText "hola".toList) ∧
    ¬∃ a m b, cleanSubtitleText "hola".toList = a ++ '<' :: (m ++ '>' :: b) ∧
      m ≠ [] ∧ '>' ∉ m := by
  refine ⟨by decide, ?_⟩
  exact clean_subtitle_text_no_html_tags.2 envMetaFail "auto".toList false
    (cleanSubtitleText "hola".toList) (by decide)

theorem isTsAt_elim {l : Str} (hts : isTsAt l = true) :
    ∃ rest, l = '<' :: rest ∧ headIsGt rest = false ∧ '>' ∈ rest := by
  unfold isTsAt at hts
  split at hts
  case h_1 a b c d e f g h i rest =>
    simp only [Bool.and_eq_true] at hts
    refine ⟨a :: b :: ':' :: c :: d :: ':' :: e :: f :: '.' :: g :: h :: i :: '>' :: rest,
      rfl, ?_, by simp⟩
    simp only [headIsGt, beq_eq_false_iff_ne, ne_eq]
    intro ha
    have hd := hts.1.1.1.1.1.1.1.1
    rw [ha] at hd
    exact absurd hd (by decide)
  case h_2 => cases hts

theorem tsSubF_id : ∀ (fuel : Nat) {l : Str}, containsTag l = false → tsSubF fuel l = l := by
  intro fuel
  induction fuel with
  | zero => intro l _; rfl
  | succ fuel ih =>
    intro l h
    match l with
    | [] => rfl
    | c :: rest =>
      unfold tsSubF
      by_cases hts : isTsAt (c :: rest) = true
      · obtain ⟨r2, heq, hhd, hgt⟩ := isTsAt_elim hts
        have hc : c = '<' ∧ rest = r2 := by
          have := (List.cons.injEq _ _ _ _).mp heq
          exact ⟨this.1, this.2⟩
        exfalso
        have hg := (containsTag_cons_false.mp h).1
        exact hg ⟨hc.1, hc.2 ▸ hhd, hc.2 ▸ hgt⟩
      · rw [if_neg hts]
        rw [ih (containsTag_tail h)]

theorem htmlSubF_id : ∀ (fuel : Nat) {l : Str}, containsTag l = false → htmlSubF fuel l = l := by
  intro fuel
  induction fuel with
  | zero => intro l _; rfl
  | succ fuel ih =>
    intro l h
    match l with
    | [] => rfl
    | c :: rest =>
      unfold htmlSubF
      rw [if_neg (containsTag_cons_false.mp h).1]
      rw [ih (containsTag_tail h)]

theorem splitLines_no_nl {l : Str} (h : '\n' ∉ l) : splitLines l = [l] := by
  induction l with
  | nil => rfl
  | cons c rest ih =>
    unfold splitLines
    rw [if_neg (fun hc => h (by rw [← hc]; exact List.mem_cons_self c rest))]
    rw [ih (fun hm => h (List.mem_cons_of_mem c hm))]

theorem no_nl_mem_splitLines : ∀ {s : Str} {m : Str}, m ∈ splitLines s → '\n' ∉ m := by
  intro s
  induction s with
  | nil =>
    intro m hm
    simp [splitLines] at hm
    simp [hm]
  | cons c rest ih =>
    intro m hm
    unfold splitLines at hm
    by_cases hc : c = '\n'
    · rw [if_pos hc] at hm
      rcases List.mem_cons.mp hm with h | h
      · simp [h]
      · exact ih h
    · rw [if_neg hc] at hm
      cases heq : splitLines rest with
      | nil => exact absurd heq (splitLines_ne_nil rest)
      | cons hl t =>
        rw [heq] at hm
        rcases List.mem_cons.mp hm with h | h
        · subst h
          intro hnl
          rcases List.mem_cons.mp hnl with h2 | h2
          · exact hc h2.symm
          · exact ih (heq ▸ List.mem_cons_self hl t) h2
        · exact ih (heq ▸ List.mem_cons_of_mem hl h)

theorem mem_tsSubF {d : Char} : ∀ (fuel : Nat) (l : Str), d ∈ tsSubF fuel l → d ∈ l := by
  intro fuel
  induction fuel with
  | zero => intro l h; exact h
  | succ fuel ih =>
    intro l h
    match l with
    | [] => exact h
    | c :: rest =>
      unfold tsSubF at h
      by_cases hts : isTsAt (c :: rest) = true
      · rw [if_pos hts] at h
        exact List.mem_cons_of_mem c ((List.drop_subset 13 rest) (ih _ h))
      · rw [if_neg hts] at h
        rcases List.mem_cons.mp h with h2 | h2
        · exact h2 ▸ List.mem_cons_self c rest
        · exact List.mem_cons_of_mem c (ih rest h2)

theorem lazySubF_id_not_mem {op cl : Char} :
    ∀ (fuel : Nat) {l : Str}, op ∉ l → lazySubF op cl fuel l = l := by
  intro fuel
  induction fuel with
  | zero => intro l _; rfl
  | succ fuel ih =>
    intro l h
    match l with
    | [] => rfl
    | c :: rest =>
      unfold lazySubF
      rw [if_neg (by rintro ⟨hc, -⟩; exact h (hc ▸ List.mem_cons_self c rest))]
      rw [ih (fun hm => h (List.mem_cons_of_mem c hm))]

theorem mem_joinSpace {x : Char} :
    ∀ {P : List Str}, x ∈ joinSpace P → (∃ p ∈ P, x ∈ p) ∨ x = ' '
  | [] => by intro h; simp [joinSpace] at h
  | [p] => by
    intro h
    exact Or.inl ⟨p, List.mem_singleton_self p, h⟩
  | p :: q :: ps => by
    intro h
    rw [joinSpace_cons_cons] at h
    rcases List.mem_append.mp h with h2 | h2
    · exact Or.inl ⟨p, List.mem_cons_self _ _, h2⟩
    · rcases List.mem_cons.mp h2 with h3 | h3
      · exact Or.inr h3
      · rcases mem_joinSpace h3 with ⟨r, hr1, hr2⟩ | h4
        · exact Or.inl ⟨r, List.mem_cons_of_mem p hr1, hr2⟩
        · exact Or.inr h4

theorem mem_wordJoin {x : Char} {l : Str} (h : x ∈ wordJoin l) : x ∈ l ∨ x = ' ' := by
  unfold wordJoin at h
  rcases mem_joinSpace h with ⟨w, hw1, hw2⟩ | h2
  · exact Or.inl (mem_wordsWSF _ _ w hw1 hw2)
  · exact Or.inr h2

theorem mem_stripWS {x : Char} {l : Str} (h : x ∈ stripWS l) : x ∈ l := by
  unfold stripWS at h
  exact (List.dropWhile_sublist _).subset (mem_dropTrailIf h)

theorem wordsWSF_nil : ∀ n : Nat, wordsWSF n [] = [] := by
  intro n
  cases n <;> rfl

theorem takeWhile_all_append {p : Char → Bool} {d : Char} (hd : p d = false) (t : Str) :
    ∀ {a : Str}, (∀ c ∈ a, p c = true) →
      (a ++ d :: t).takeWhile p = a ∧ (a ++ d :: t).dropWhile p = d :: t := by
  intro a
  induction a with
  | nil =>
    intro _
    simp only [List.nil_append, List.takeWhile_cons, List.dropWhile_cons, hd]
    simp
  | cons c a2 ih =>
    intro h
    have hc : p c = true := h c (List.mem_cons_self c a2)
    have ih2 := ih (fun x hx => h x (List.mem_cons_of_mem c hx))
    simp only [List.cons_append, List.takeWhile_cons, List.dropWhile_cons, hc]
    simp only [if_true]
    exact ⟨by rw [ih2.1], by rw [ih2.2]⟩

theorem takeWhile_all {p : Char → Bool} :
    ∀ {l : Str}, (∀ c ∈ l, p c = true) → l.takeWhile p = l ∧ l.dropWhile p = [] := by
  intro l
  induction l with
  | nil => intro _; exact ⟨rfl, rfl⟩
  | cons c rest ih =>
    intro h
    have hc : p c = true := h c (List.mem_cons_self c rest)
    have ih2 := ih (fun x hx => h x (List.mem_cons_of_mem c hx))
    simp only [List.takeWhile_cons, List.dropWhile_cons, hc, if_true]
    exact ⟨by rw [ih2.1], ih2.2⟩

theorem wordsWSF_succ_cons (f : Nat) (c : Char) (rest : Str) :
    wordsWSF (f + 1) (c :: rest) =
      if isWS c = true then wordsWSF f rest
      else (c :: rest.takeWhile (fun d => !isWS d)) ::
        wordsWSF f (rest.dropWhile (fun d => !isWS d)) := rfl

theorem wordsWSF_join :
    ∀ (W : List Str) (fuel : Nat), cleanWords W → (joinSpace W).length ≤ fuel →
      wordsWSF fuel (joinSpace W) = W
  | [], fuel => by
    intro _ _
    show wordsWSF fuel [] = []
    exact wordsWSF_nil fuel
  | [w], fuel => by
    intro hW hf
    obtain ⟨hne, hnws⟩ := hW w (List.mem_singleton_self w)
    show wordsWSF fuel w = [w]
    cases w with
    | nil => exact absurd rfl hne
    | cons c rest =>
      replace hf : (c :: rest).length ≤ fuel := hf
      rw [List.length_cons] at hf
      cases fuel with
      | zero => omega
      | succ fuel =>
        rw [wordsWSF_succ_cons]
        rw [if_neg (by simp [hnws c (List.mem_cons_self c rest)])]
        have hall : ∀ x ∈ rest, (fun d => !isWS d) x = true := by
          intro x hx
          simp [hnws x (List.mem_cons_of_mem c hx)]
        have ht := takeWhile_all (l := rest) hall
        rw [ht.1, ht.2, wordsWSF_nil]
  | w :: w2 :: W2, fuel => by
    intro hW hf
    obtain ⟨hne, hnws⟩ := hW w (List.mem_cons_self w _)
    rw [joinSpace_cons_cons] at hf ⊢
    cases w with
    | nil => exact absurd rfl hne
    | cons c rest =>
      rw [List.cons_append, List.length_cons, List.length_append, List.length_cons] at hf
      cases fuel with
      | zero => omega
      | succ fuel =>
        rw [List.cons_append, wordsWSF_succ_cons]
        rw [if_neg (by simp [hnws c (List.mem_cons_self c rest)])]
        have hall : ∀ x ∈ rest, (fun d => !isWS d) x = true := by
          intro x hx
          simp [hnws x (List.mem_cons_of_mem c hx)]
        have hsp : (fun d => !isWS d) ' ' = false := by decide
        have ht := takeWhile_all_append hsp (joinSpace (w2 :: W2)) hall
        rw [ht.1, ht.2]
        cases fuel with
        | zero => omega
        | succ fuel =>
          have hstep : wordsWSF (fuel + 1) (' ' :: joinSpace (w2 :: W2)) =
              wordsWSF fuel (joinSpace (w2 :: W2)) := by
            rw [wordsWSF_succ_cons]
            rw [if_pos (by decide : isWS ' ' = true)]
          rw [hstep]
          rw [wordsWSF_join (w2 :: W2) fuel
            (fun x hx => hW x (List.mem_cons_of_mem (c :: rest) hx)) (by omega)]

theorem wordsWS_join {W : List Str} (hW : cleanWords W) : wordsWS (joinSpace W) = W :=
  wordsWSF_join W (joinSpace W).length hW (Nat.le_refl _)

theorem wordJoin_join {W : List Str} (hW : cleanWords W) :
    wordJoin (joinSpace W) = joinSpace W := by
  unfold wordJoin
  rw [wordsWS_join hW]

theorem collapseWS_cons_nonws {c : Char} (l : Str) (hc : isWS c = false) :
    collapseWS (c :: l) = c :: collapseWS l := by
  cases l with
  | nil =>
    show (if isWS c = true then [' '] else [c]) = c :: collapseWS []
    rw [if_neg (by simp [hc])]
    rfl
  | cons d r =>
    show (if (isWS c && isWS d) = true then collapseWS (d :: r)
      else (if isWS c = true then ' ' else c) :: collapseWS (d :: r)) = c :: collapseWS (d :: r)
    rw [if_neg (by simp [hc]), if_neg (by simp [hc])]

theorem collapseWS_word_append {l : Str} :
    ∀ {a : Str}, (∀ c ∈ a, isWS c = false) → collapseWS (a ++ l) = a ++ collapseWS l := by
  intro a
  induction a with
  | nil => intro _; rfl
  | cons c a2 ih =>
    intro h
    rw [List.cons_append,
      collapseWS_cons_nonws _ (h c (List.mem_cons_self c a2)),
      ih (fun x hx => h x (List.mem_cons_of_mem c hx)), List.cons_append]

theorem joinSpace_head : ∀ {w : Str} {W : List Str}, cleanWords (w :: W) →
    ∃ c t, joinSpace (w :: W) = c :: t ∧ isWS c = false := by
  intro w W hW
  obtain ⟨hne, hnws⟩ := hW w (List.mem_cons_self w W)
  cases w with
  | nil => exact absurd rfl hne
  | cons c rest =>
    cases W with
    | nil => exact ⟨c, rest, rfl, hnws c (List.mem_cons_self c rest)⟩
    | cons w2 W2 =>
      rw [joinSpace_cons_cons, List.cons_append]
      exact ⟨c, rest ++ ' ' :: joinSpace (w2 :: W2), rfl, hnws c (List.mem_cons_self c rest)⟩

theorem collapseWS_join : ∀ {W : List Str}, cleanWords W → collapseWS (joinSpace W) = joinSpace W
  | [] => by intro _; rfl
  | [w] => by
    intro hW
    show collapseWS w = w
    have h := collapseWS_word_append (l := []) (a := w)
      (fun c hc => (hW w (List.mem_singleton_self w)).2 c hc)
    simpa [collapseWS] using h
  | w :: w2 :: W2 => by
    intro hW
    rw [joinSpace_cons_cons]
    rw [collapseWS_word_append (fun c hc => (hW w (List.mem_cons_self w _)).2 c hc)]
    have hWrest : cleanWords (w2 :: W2) := fun x hx => hW x (List.mem_cons_of_mem w hx)
    obtain ⟨c, t, hct, hcn⟩ := joinSpace_head hWrest
    rw [hct]
    unfold collapseWS
    rw [if_neg (by simp [hcn])]
    rw [if_pos (by decide : isWS ' ' = true)]
    rw [← hct, collapseWS_join hWrest, hct]

theorem joinSpace_ne_nil {w : Str} {W : List Str} (hW : cleanWords (w :: W)) :
    joinSpace (w :: W) ≠ [] := by
  obtain ⟨c, t, hct, -⟩ := joinSpace_head hW
  rw [hct]
  simp

theorem dropTrailIf_word {p : Char → Bool} :
    ∀ {w : Str}, (∀ c ∈ w, p c = false) → dropTrailIf p w = w := by
  intro w
  induction w with
  | nil => intro _; rfl
  | cons c rest ih =>
    intro h
    rw [dropTrailIf_cons, ih (fun x hx => h x (List.mem_cons_of_mem c hx))]
    cases rest with
    | nil =>
      rw [if_neg (by simp [h c (List.mem_cons_self c [])])]
    | cons r rs => rfl

theorem dropTrailIf_append_ne {p : Char → Bool} {b : Str} (hb : dropTrailIf p b ≠ []) :
    ∀ a : Str, dropTrailIf p (a ++ b) = a ++ dropTrailIf p b := by
  intro a
  induction a with
  | nil => rfl
  | cons c a2 ih =>
    rw [List.cons_append, dropTrailIf_cons, ih]
    cases hd : a2 ++ dropTrailIf p b with
    | nil =>
      rcases List.append_eq_nil.mp hd with ⟨-, h2⟩
      exact absurd h2 hb
    | cons r rs =>
      rw [List.cons_append, hd]

theorem stripWS_join : ∀ {W : List Str}, cleanWords W → stripWS (joinSpace W) = joinSpace W := by
  intro W hW
  cases W with
  | nil => rfl
  | cons w W2 =>
    unfold stripWS
    obtain ⟨c, t, hct, hcn⟩ := joinSpace_head hW
    rw [hct, List.dropWhile_cons, if_neg (by simp [hcn]), ← hct]
    cases W2 with
    | nil =>
      show dropTrailIf isWS w = w
      exact dropTrailIf_word (fun x hx => by
        simpa using (hW w (List.mem_singleton_self w)).2 x hx)
    | cons w2 W3 =>
      rw [joinSpace_cons_cons]
      have hWrest : cleanWords (w2 :: W3) := fun x hx => hW x (List.mem_cons_of_mem w hx)
      have hrest : dropTrailIf isWS (joinSpace (w2 :: W3)) = joinSpace (w2 :: W3) := by
        have := stripWS_join hWrest
        unfold stripWS at this
        obtain ⟨c2, t2, hct2, hcn2⟩ := joinSpace_head hWrest
        rw [hct2, List.dropWhile_cons, if_neg (by simp [hcn2]), ← hct2] at this
        exact this
      have hne : dropTrailIf isWS (' ' :: joinSpace (w2 :: W3)) ≠ [] := by
        rw [dropTrailIf_cons]
        cases hd : dropTrailIf isWS (joinSpace (w2 :: W3)) with
        | nil =>
          rw [hd] at hrest
          exact absurd hrest.symm (joinSpace_ne_nil hWrest)
        | cons r rs => simp
      have hsp : dropTrailIf isWS (' ' :: joinSpace (w2 :: W3)) =
          ' ' :: joinSpace (w2 :: W3) := by
        rw [dropTrailIf_cons]
        cases hd : dropTrailIf isWS (joinSpace (w2 :: W3)) with
        | nil =>
          rw [hd] at hrest
          exact absurd hrest.symm (joinSpace_ne_nil hWrest)
        | cons r rs =>
          show ' ' :: (r :: rs) = ' ' :: joinSpace (w2 :: W3)
          rw [← hd, hrest]
      rw [dropTrailIf_append_ne hne w, hsp]

theorem dropTrailIf_length_le (p : Char → Bool) (l : Str) :
    (dropTrailIf p l).length ≤ l.length := by
  obtain ⟨w, hw1, -⟩ := dropTrailIf_decomp p l
  have := congrArg List.length hw1
  rw [List.length_append] at this
  omega

theorem keyOf_length_le (w : Str) : (keyOf w).length ≤ w.length := by
  unfold keyOf
  calc (dropTrailIf isPunct ((w.map Char.toLower).dropWhile isPunct)).length
      ≤ ((w.map Char.toLower).dropWhile isPunct).length := dropTrailIf_length_le _ _
    _ ≤ (w.map Char.toLower).length := (List.dropWhile_sublist _).length_le
    _ = w.length := List.length_map _ _

theorem dropTrailIf_cons_nonp {p : Char → Bool} {c : Char} (hc : p c = false) (z : Str) :
    dropTrailIf p (c :: z) = c :: dropTrailIf p z := by
  cases hd : dropTrailIf p z with
  | nil =>
    simp only [dropTrailIf_cons, hd]
    rw [if_neg (by simp [hc])]
  | cons r rs =>
    simp only [dropTrailIf_cons, hd]

theorem dropWhile_append_of_ne {p : Char → Bool} {h : Char} {t : Str} :
    ∀ {l : Str}, l.dropWhile p = h :: t → ∀ z : Str, (l ++ z).dropWhile p = h :: (t ++ z) := by
  intro l
  induction l with
  | nil => intro hl; simp [List.dropWhile] at hl
  | cons c rest ih =>
    intro hl z
    rw [List.dropWhile_cons] at hl
    by_cases hc : p c = true
    · rw [if_pos hc] at hl
      rw [List.cons_append, List.dropWhile_cons, if_pos hc]
      exact ih hl z
    · rw [if_neg hc] at hl
      obtain ⟨h1, h2⟩ := List.cons.injEq _ _ _ _ ▸ hl
      rw [List.cons_append, List.dropWhile_cons, if_neg hc, h1, h2]

theorem dropTrailIf_concat (p : Char → Bool) :
    ∀ l : Str, dropTrailIf p l = [] ∨
      ∃ z c, dropTrailIf p l = z ++ [c] ∧ p c = false := by
  intro l
  induction l with
  | nil => exact Or.inl rfl
  | cons c rest ih =>
    rcases ih with hd | ⟨z, e, hz, he⟩
    · by_cases hc : p c = true
      · left
        simp only [dropTrailIf_cons, hd]
        rw [if_pos hc]
      · right
        refine ⟨[], c, ?_, by simpa using hc⟩
        simp only [dropTrailIf_cons, hd]
        rw [if_neg (by simp [hc])]
        rfl
    · right
      refine ⟨c :: z, e, ?_, he⟩
      cases hd : dropTrailIf p rest with
      | nil => rw [hd] at hz; exact absurd hz (by simp)
      | cons r rs =>
        simp only [dropTrailIf_cons, hd]
        rw [← hd, hz]
        rfl

theorem dropTrailIf_head {p : Char → Bool} {c : Char} {t : Str} :
    ∀ {l : Str}, dropTrailIf p l = c :: t → ∃ t', l = c :: t' := by
  intro l
  cases l with
  | nil => intro h; exact absurd h (by simp [dropTrailIf])
  | cons d rest =>
    intro h
    cases hd : dropTrailIf p rest with
    | nil =>
      simp only [dropTrailIf_cons, hd] at h
      by_cases hp : p d = true
      · rw [if_pos hp] at h; exact absurd h (by simp)
      · rw [if_neg hp] at h
        obtain ⟨h1, -⟩ := List.cons.injEq _ _ _ _ ▸ h
        exact ⟨rest, by rw [h1]⟩
    | cons r rs =>
      simp only [dropTrailIf_cons, hd] at h
      obtain ⟨h1, -⟩ := List.cons.injEq _ _ _ _ ▸ h
      exact ⟨rest, by rw [h1]⟩

theorem stripWS_shape {l : Str} {c : Char} {t : Str} (h : stripWS l = c :: t) :
    isWS c = false := by
  unfold stripWS at h
  obtain ⟨t', ht'⟩ := dropTrailIf_head h
  exact head_dropWhile_false isWS l ht'

theorem sw_mono_append {p : Str} :
    ∀ {s : Str}, startsWith p s = true → ∀ z : Str, startsWith p (s ++ z) = true := by
  induction p with
  | nil => intro s _ z; rfl
  | cons a ps ih =>
    intro s hs z
    cases s with
    | nil => exact absurd hs (by simp [startsWith])
    | cons c rest =>
      simp only [startsWith, Bool.and_eq_true] at hs
      rw [List.cons_append]
      simp only [startsWith, Bool.and_eq_true]
      exact ⟨hs.1, ih hs.2 z⟩

theorem hasSub_mono_app {p : Str} :
    ∀ {s : Str}, hasSub p s = true → ∀ z : Str, hasSub p (s ++ z) = true := by
  intro s
  induction s with
  | nil =>
    intro hs z
    simp only [hasSub, List.isEmpty_iff] at hs
    subst hs
    cases z with
    | nil => rfl
    | cons c r => simp [hasSub, startsWith]
  | cons c rest ih =>
    intro hs z
    simp only [hasSub, Bool.or_eq_true] at hs
    rw [List.cons_append]
    simp only [hasSub, Bool.or_eq_true]
    rcases hs with h | h
    · exact Or.inl (sw_mono_append h z)
    · exact Or.inr (ih h z)

theorem hasSub_mono_left {p : Str} {s : Str} (hs : hasSub p s = true) :
    ∀ z : Str, hasSub p (z ++ s) = true := by
  intro z
  induction z with
  | nil => exact hs
  | cons c r ih =>
    rw [List.cons_append]
    simp only [hasSub, Bool.or_eq_true]
    exact Or.inr ih

theorem sw_append_wshead {tok : Str} (hws : ∀ c ∈ tok, isWS c = false) {z : Str}
    (hz : z = [] ∨ ∃ d z', z = d :: z' ∧ isWS d = true) :
    ∀ w : Str, startsWith tok (w ++ z) = startsWith tok w := by
  induction tok with
  | nil => intro w; rfl
  | cons a ps ih =>
    intro w
    cases w with
    | nil =>
      rcases hz with h | ⟨d, z', hzz, hd⟩
      · rw [h]
        rfl
      · rw [hzz, List.nil_append]
        show (a == d && startsWith ps z') = startsWith (a :: ps) []
        have hne : (a == d) = false := by
          have ha := hws a (List.mem_cons_self a ps)
          cases hbe : a == d with
          | false => rfl
          | true =>
            rw [beq_iff_eq] at hbe
            rw [hbe, hd] at ha
            cases ha
        rw [hne]
        rfl
    | cons c rest =>
      rw [List.cons_append]
      show (a == c && startsWith ps (rest ++ z)) = (a == c && startsWith ps rest)
      rw [ih (fun x hx => hws x (List.mem_cons_of_mem a hx)) rest]

theorem sw_join_head {tok : Str} (hws : ∀ c ∈ tok, isWS c = false) (w : Str) :
    ∀ W : List Str, startsWith tok (joinSpace (w :: W)) = startsWith tok w := by
  intro W
  cases W with
  | nil => rfl
  | cons w2 W2 =>
    rw [joinSpace_cons_cons]
    exact sw_append_wshead hws (Or.inr ⟨' ', joinSpace (w2 :: W2), rfl, by decide⟩) w

theorem hasSub_append_ws {tok : Str} (hne : tok ≠ []) (hws : ∀ c ∈ tok, isWS c = false) :
    ∀ (A B : Str), hasSub tok (A ++ ' ' :: B) = true →
      hasSub tok A = true ∨ hasSub tok B = true := by
  intro A
  induction A with
  | nil =>
    intro B h
    rw [List.nil_append] at h
    simp only [hasSub, Bool.or_eq_true] at h
    rcases h with h | h
    · cases tok with
      | nil => exact absurd rfl hne
      | cons a ps =>
        simp only [startsWith, Bool.and_eq_true, beq_iff_eq] at h
        have ha := hws a (List.mem_cons_self a ps)
        rw [h.1] at ha
        exact absurd ha (by decide)
    · exact Or.inr h
  | cons c A2 ih =>
    intro B h
    rw [List.cons_append] at h
    simp only [hasSub, Bool.or_eq_true] at h
    rcases h with h | h
    · rw [← List.cons_append] at h
      rw [sw_append_wshead hws (Or.inr ⟨' ', B, rfl, by decide⟩) (c :: A2)] at h
      exact Or.inl (by simp only [hasSub, Bool.or_eq_true]; exact Or.inl h)
    · rcases ih B h with h2 | h2
      · exact Or.inl (by simp only [hasSub, Bool.or_eq_true]; exact Or.inr h2)
      · exact Or.inr h2

theorem hasSub_join {tok : Str} (hne : tok ≠ []) (hws : ∀ c ∈ tok, isWS c = false) :
    ∀ vs : List Str, hasSub tok (joinSpace vs) = true → ∃ v ∈ vs, hasSub tok v = true
  | [] => by
    intro h
    cases tok with
    | nil => exact absurd rfl hne
    | cons a ps => exact absurd h (by simp [joinSpace, hasSub])
  | [v] => fun h => ⟨v, List.mem_singleton_self v, h⟩
  | v :: v2 :: vs2 => by
    intro h
    rw [joinSpace_cons_cons] at h
    rcases hasSub_append_ws hne hws v (joinSpace (v2 :: vs2)) h with h2 | h2
    · exact ⟨v, List.mem_cons_self v _, h2⟩
    · obtain ⟨u, hu1, hu2⟩ := hasSub_join hne hws (v2 :: vs2) h2
      exact ⟨u, List.mem_cons_of_mem v hu1, hu2⟩

theorem hasSub_wordsWSF {tok : Str} :
    ∀ (fuel : Nat) (l : Str) (w : Str), w ∈ wordsWSF fuel l → hasSub tok w = true →
      hasSub tok l = true := by
  intro fuel
  induction fuel with
  | zero => intro l w hw; simp [wordsWSF] at hw
  | succ fuel ih =>
    intro l w hw hsub
    match l with
    | [] => simp [wordsWSF] at hw
    | c :: rest =>
      unfold wordsWSF at hw
      by_cases hc : isWS c = true
      · rw [if_pos hc] at hw
        have hr := ih rest w hw hsub
        simp only [hasSub, Bool.or_eq_true]
        exact Or.inr hr
      · rw [if_neg hc] at hw
        have hdec : c :: rest = (c :: rest.takeWhile (fun d => !isWS d)) ++
            rest.dropWhile (fun d => !isWS d) := by
          rw [List.cons_append, List.takeWhile_append_dropWhile]
        rcases List.mem_cons.mp hw with h | h
        · subst h
          rw [hdec]
          exact hasSub_mono_app hsub _
        · have hr := ih _ w h hsub
          rw [hdec]
          exact hasSub_mono_left hr _

theorem startsWith_decomp : ∀ {p l : Str}, startsWith p l = true → ∃ z, l = p ++ z := by
  intro p
  induction p with
  | nil => intro l _; exact ⟨l, rfl⟩
  | cons a ps ih =>
    intro l h
    cases l with
    | nil => exact absurd h (by simp [startsWith])
    | cons c rest =>
      simp only [startsWith, Bool.and_eq_true, beq_iff_eq] at h
      obtain ⟨z, hz⟩ := ih h.2
      exact ⟨z, by rw [List.cons_append, ← hz, h.1]⟩

theorem sw_of_append (p z : Str) : startsWith p (p ++ z) = true := by
  induction p with
  | nil => rfl
  | cons a ps ih =>
    rw [List.cons_append]
    simp only [startsWith, Bool.and_eq_true, beq_iff_eq]
    exact ⟨trivial, ih⟩

theorem isDigit_not_ws {c : Char} (h : c.isDigit = true) : isWS c = false := by
  cases hw : isWS c with
  | false => rfl
  | true =>
    exfalso
    unfold isWS at hw
    simp only [Bool.or_eq_true, beq_iff_eq] at hw
    rcases hw with ((((h1 | h1) | h1) | h1) | h1) | h1 <;>
      (rw [h1] at h; exact absurd h (by decide))

theorem timePat_cons_eq (a b c d e f : Char) (z : Str) :
    timePat (a :: b :: ':' :: c :: d :: ':' :: e :: f :: z) =
      (a.isDigit && b.isDigit && c.isDigit && d.isDigit && e.isDigit && f.isDigit) := rfl

theorem timePat_elim {l : Str} (h : timePat l = true) :
    ∃ a b c d e f z, l = a :: b :: ':' :: c :: d :: ':' :: e :: f :: z ∧
      a.isDigit = true ∧ b.isDigit = true ∧ c.isDigit = true ∧ d.isDigit = true ∧
      e.isDigit = true ∧ f.isDigit = true := by
  unfold timePat at h
  split at h
  case h_1 a b c d e f z =>
    simp only [Bool.and_eq_true] at h
    exact ⟨a, b, c, d, e, f, z, rfl, h.1.1.1.1.1, h.1.1.1.1.2, h.1.1.1.2, h.1.1.2, h.1.2, h.2⟩
  case h_2 => cases h

theorem wordsWSF_nil_ws :
    ∀ (fuel : Nat) (l : Str), l.length ≤ fuel → wordsWSF fuel l = [] →
      ∀ c ∈ l, isWS c = true := by
  intro fuel
  induction fuel with
  | zero =>
    intro l hl _ c hc
    rw [Nat.le_zero, List.length_eq_zero] at hl
    subst hl
    cases hc
  | succ fuel ih =>
    intro l hl hw c hc
    match l with
    | [] => cases hc
    | d :: rest =>
      have hl2 : rest.length ≤ fuel := by
        rw [List.length_cons] at hl
        omega
      rw [wordsWSF_succ_cons] at hw
      by_cases hd : isWS d = true
      · rw [if_pos hd] at hw
        rcases List.mem_cons.mp hc with h | h
        · rw [h]; exact hd
        · exact ih rest hl2 hw c h
      · rw [if_neg hd] at hw
        cases hw

theorem wordsWS_cons_eq {c : Char} (hc : isWS c = false) (t : Str) :
    wordsWS (c :: t) = (c :: t.takeWhile (fun d => !isWS d)) ::
      wordsWSF t.length (t.dropWhile (fun d => !isWS d)) := by
  show wordsWSF (t.length + 1) (c :: t) = _
  rw [wordsWSF_succ_cons, if_neg (by simp [hc])]

theorem joinSpace_append :
    ∀ (A : List Str), A ≠ [] → ∀ (B : List Str), B ≠ [] →
      joinSpace (A ++ B) = joinSpace A ++ ' ' :: joinSpace B
  | [], h => absurd rfl h
  | [a], _ => by
    intro B hB
    cases B with
    | nil => exact absurd rfl hB
    | cons b B2 =>
      rw [List.singleton_append, joinSpace_cons_cons]
      rfl
  | a :: a2 :: A2, _ => by
    intro B hB
    have h2 : (a2 :: A2) ++ B = a2 :: (A2 ++ B) := List.cons_append a2 A2 B
    calc joinSpace ((a :: a2 :: A2) ++ B)
        = joinSpace (a :: a2 :: (A2 ++ B)) := by rw [List.cons_append, h2]
      _ = a ++ ' ' :: joinSpace (a2 :: (A2 ++ B)) := joinSpace_cons_cons _ _ _
      _ = a ++ ' ' :: joinSpace ((a2 :: A2) ++ B) := by rw [h2]
      _ = a ++ ' ' :: (joinSpace (a2 :: A2) ++ ' ' :: joinSpace B) := by
            rw [joinSpace_append (a2 :: A2) (by simp) B hB]
      _ = (a ++ ' ' :: joinSpace (a2 :: A2)) ++ ' ' :: joinSpace B := by simp
      _ = joinSpace (a :: a2 :: A2) ++ ' ' :: joinSpace B := by rw [joinSpace_cons_cons]

theorem joins_join :
    ∀ vs : List Str, (∀ v ∈ vs, ∃ W, cleanWords W ∧ W ≠ [] ∧ v = joinSpace W) →
      ∃ V, cleanWords V ∧ (vs ≠ [] → V ≠ []) ∧ joinSpace vs = joinSpace V
  | [] => fun _ => ⟨[], fun w hw => absurd hw (List.not_mem_nil w), fun h => absurd rfl h, rfl⟩
  | v :: vs2 => by
    intro h
    obtain ⟨W, hW, hWne, hv⟩ := h v (List.mem_cons_self v vs2)
    obtain ⟨V2, hV2, hV2ne, hjoin⟩ := joins_join vs2 (fun u hu => h u (List.mem_cons_of_mem v hu))
    cases vs2 with
    | nil => exact ⟨W, hW, fun _ => hWne, hv⟩
    | cons u us =>
      refine ⟨W ++ V2, ?_, ?_, ?_⟩
      · intro w hw
        rcases List.mem_append.mp hw with h1 | h1
        · exact hW w h1
        · exact hV2 w h1
      · intro _
        simp [hWne]
      · have hVne : V2 ≠ [] := hV2ne (by simp)
        rw [joinSpace_cons_cons, hv, hjoin, joinSpace_append W hWne V2 hVne]

theorem mem_dedup_join {c : Char} {ls seen : List Str}
    (h : c ∈ joinSpace (dedupLoop ls seen)) : (∃ l ∈ ls, c ∈ l) ∨ c = ' ' := by
  rcases mem_joinSpace h with ⟨v, hv1, hv2⟩ | h2
  · obtain ⟨l, hl, hveq⟩ := mem_dedupLoop ls seen v hv1
    rw [hveq] at hv2
    rcases mem_wordJoin hv2 with h3 | h3
    · exact Or.inl ⟨l, hl, mem_stripWS h3⟩
    · exact Or.inr h3
  · exact Or.inr h2

theorem dedupLoop_facts :
    ∀ (ls seen : List Str) (v : Str), v ∈ dedupLoop ls seen →
      ∃ l ∈ ls, keepLine (stripWS l) ∧ v = wordJoin (stripWS l) ∧ 5 < (keyOf v).length
  | [], _, v => by intro h; simp [dedupLoop] at h
  | l :: ls, seen, v => by
    intro h
    unfold dedupLoop at h
    by_cases hk : keepLine (stripWS l)
    · rw [if_pos hk] at h
      by_cases hd : keyOf (wordJoin (stripWS l)) ∉ seen ∧
          5 < (keyOf (wordJoin (stripWS l))).length
      · rw [if_pos hd] at h
        rcases List.mem_cons.mp h with h2 | h2
        · subst h2
          exact ⟨l, List.mem_cons_self l ls, hk, rfl, hd.2⟩
        · obtain ⟨l2, hl2, hf⟩ := dedupLoop_facts ls _ v h2
          exact ⟨l2, List.mem_cons_of_mem l hl2, hf⟩
      · rw [if_neg hd] at h
        obtain ⟨l2, hl2, hf⟩ := dedupLoop_facts ls seen v h
        exact ⟨l2, List.mem_cons_of_mem l hl2, hf⟩
    · rw [if_neg hk] at h
      obtain ⟨l2, hl2, hf⟩ := dedupLoop_facts ls seen v h
      exact ⟨l2, List.mem_cons_of_mem l hl2, hf⟩

theorem sw_wordJoin {tok : Str} (hws : ∀ c ∈ tok, isWS c = false) {l : Str}
    (h : startsWith tok (wordJoin (stripWS l)) = true) :
    startsWith tok (stripWS l) = true := by
  cases hs : stripWS l with
  | nil =>
    rw [hs] at h
    exact h
  | cons c t =>
    have hcns : isWS c = false := stripWS_shape hs
    rw [hs] at h
    unfold wordJoin at h
    rw [wordsWS_cons_eq hcns, sw_join_head hws] at h
    have hz : t.dropWhile (fun d => !isWS d) = [] ∨
        ∃ d z', t.dropWhile (fun d => !isWS d) = d :: z' ∧ isWS d = true := by
      cases hdw : t.dropWhile (fun d => !isWS d) with
      | nil => exact Or.inl rfl
      | cons d z2 =>
        have hd := head_dropWhile_false (fun x => !isWS x) t hdw
        exact Or.inr ⟨d, z2, rfl, by simpa using hd⟩
    have hdecomp : c :: t = (c :: t.takeWhile (fun d => !isWS d)) ++
        t.dropWhile (fun d => !isWS d) := by
      rw [List.cons_append, List.takeWhile_append_dropWhile]
    rw [hdecomp, sw_append_wshead hws hz]
    exact h

theorem hasSub_wordJoin {tok : Str} (hne : tok ≠ []) (hws : ∀ c ∈ tok, isWS c = false)
    {s : Str} (h : hasSub tok (wordJoin s) = true) : hasSub tok s = true := by
  unfold wordJoin at h
  obtain ⟨w, hw1, hw2⟩ := hasSub_join hne hws _ h
  exact hasSub_wordsWSF s.length s w hw1 hw2

theorem head_rev_mem {B : Str} (hB : B ≠ []) {A z : Str} {e : Char}
    (h : A ++ B = z ++ [e]) : e ∈ B := by
  cases hq : B.reverse with
  | nil => exact absurd (by simpa using hq) hB
  | cons q Q =>
    have h1 : (A ++ B).reverse = (z ++ [e]).reverse := by rw [h]
    rw [List.reverse_append, List.reverse_append, hq] at h1
    simp only [List.reverse_cons, List.reverse_nil, List.nil_append] at h1
    rw [List.cons_append] at h1
    have hqe : q = e := (List.cons.injEq _ _ _ _ ▸ h1).1
    have hqm : q ∈ B.reverse := by rw [hq]; exact List.mem_cons_self q Q
    rw [List.mem_reverse] at hqm
    rw [← hqe]
    exact hqm

theorem pyIsDigit_wordJoin {l : Str} (h : pyIsDigit (wordJoin (stripWS l))) :
    pyIsDigit (stripWS l) := by
  obtain ⟨hne, hall⟩ := h
  have hsp : ' ' ∉ wordJoin (stripWS l) := by
    intro hmem
    have hd := hall ' ' hmem
    exact absurd hd (by decide)
  cases hs : stripWS l with
  | nil =>
    rw [hs] at hne
    exact absurd rfl hne
  | cons c t =>
    have hcns : isWS c = false := stripWS_shape hs
    have hstrip : dropTrailIf isWS (l.dropWhile isWS) = c :: t := hs
    rw [hs] at hne hall hsp
    unfold wordJoin at hne hall hsp
    rw [wordsWS_cons_eq hcns] at hne hall hsp
    cases hW : wordsWSF t.length (t.dropWhile (fun d => !isWS d)) with
    | cons w2 W2 =>
      exfalso
      rw [hW, joinSpace_cons_cons] at hsp
      exact hsp (List.mem_append_right _ (List.mem_cons_self ' ' _))
    | nil =>
      rw [hW] at hall
      have hb : t.dropWhile (fun d => !isWS d) = [] := by
        cases hdw : t.dropWhile (fun d => !isWS d) with
        | nil => rfl
        | cons d z2 =>
          exfalso
          have hlen : (t.dropWhile (fun d => !isWS d)).length ≤ t.length :=
            (List.dropWhile_sublist _).length_le
          have hallws : ∀ x ∈ t.dropWhile (fun d => !isWS d), isWS x = true :=
            fun x hx => wordsWSF_nil_ws t.length _ hlen hW x hx
          rcases dropTrailIf_concat isWS (l.dropWhile isWS) with hcc | ⟨z, e, hz, hews⟩
          · rw [hstrip] at hcc
            exact absurd hcc (by simp)
          · have hz2 : c :: t = z ++ [e] := hstrip ▸ hz
            have hct : (c :: t.takeWhile (fun d => !isWS d)) ++ (d :: z2) = z ++ [e] := by
              rw [← hz2, ← hdw, List.cons_append, List.takeWhile_append_dropWhile]
            have hem : e ∈ (d :: z2) := head_rev_mem (by simp) hct
            have hwse : isWS e = true := hallws e (by rw [hdw]; exact hem)
            exact absurd hwse (by simp [hews])
      have htake : t.takeWhile (fun d => !isWS d) = t := by
        have ht := List.takeWhile_append_dropWhile (l := t) (p := fun d => !isWS d)
        rw [hb, List.append_nil] at ht
        exact ht
      rw [htake] at hall
      refine ⟨by simp, fun x hx => hall x hx⟩

theorem keyOf_join_head {v : Str} (hk : 5 < (keyOf v).length) :
    ∀ vs : List Str, 5 < (keyOf (joinSpace (v :: vs))).length := by
  intro vs
  cases vs with
  | nil => exact hk
  | cons v1 vs2 =>
    rw [joinSpace_cons_cons]
    unfold keyOf at hk ⊢
    have hsp : Char.toLower ' ' = ' ' := by decide
    have hmap : (v ++ ' ' :: joinSpace (v1 :: vs2)).map Char.toLower =
        v.map Char.toLower ++ ' ' :: (joinSpace (v1 :: vs2)).map Char.toLower := by
      rw [List.map_append, List.map_cons, hsp]
    rw [hmap]
    cases hmd : (v.map Char.toLower).dropWhile isPunct with
    | nil =>
      rw [hmd] at hk
      simp [dropTrailIf] at hk
    | cons hh tt =>
      rw [hmd] at hk
      rw [dropWhile_append_of_ne hmd, ← List.cons_append]
      have hne2 : dropTrailIf isPunct
          (' ' :: (joinSpace (v1 :: vs2)).map Char.toLower) ≠ [] := by
        rw [dropTrailIf_cons_nonp (by decide)]
        simp
      rw [dropTrailIf_append_ne hne2]
      rw [dropTrailIf_cons_nonp (by decide : isPunct ' ' = false)]
      have hle := dropTrailIf_length_le isPunct (hh :: tt)
      simp only [List.length_append, List.length_cons] at hle hk ⊢
      omega

/-- C1 (amended): `clean_subtitle_text` is idempotent on every input that contains
neither `[` nor `(`.  (Idempotence fails in general — see the counterexample —
because removing bracketed or parenthesised content can leave two adjacent spaces
that only a second pass collapses.) -/
theorem clean_subtitle_text_idempotent_no_brackets (x : Str)
    (h1 : '[' ∉ x) (h2 : '(' ∉ x) :
    cleanSubtitleText (cleanSubtitleText x) = cleanSubtitleText x := by
  by_cases hcl : dedupLoop (splitLines (htmlSub (tsSub x))) [] = []
  case pos =>
    have hy : cleanSubtitleText x = [] := by
      show stripWS (lazySub '(' ')' (lazySub '[' ']' (collapseWS
        (joinSpace (dedupLoop (splitLines (htmlSub (tsSub x))) []))))) = []
      rw [hcl]
      rfl
    rw [hy]
    decide
  case neg =>
    cases hcases : dedupLoop (splitLines (htmlSub (tsSub x))) [] with
    | nil => exact absurd hcases hcl
    | cons v0 restCl =>
    obtain ⟨V, hVclean, hVne2, hVeq⟩ :=
      joins_join (dedupLoop (splitLines (htmlSub (tsSub x))) [])
      (by
        intro v hv
        obtain ⟨l, hl, hkeep, hveq, hklen⟩ := dedupLoop_facts _ _ v hv
        refine ⟨wordsWS (stripWS l), fun w hw => wordsWSF_words_ok _ _ w hw, ?_, ?_⟩
        · intro hnil
          rw [hveq] at hklen
          unfold wordJoin at hklen
          rw [hnil] at hklen
          exact absurd hklen (by decide)
        · rw [hveq]; rfl)
    have hmemV : ∀ {c : Char}, c ∈ joinSpace V →
        (∃ l ∈ splitLines (htmlSub (tsSub x)), c ∈ l) ∨ c = ' ' := by
      intro c hc
      rw [← hVeq] at hc
      exact mem_dedup_join hc
    have hbr : '[' ∉ joinSpace V := by
      intro hm
      rcases hmemV hm with ⟨l, hl, hcl2⟩ | hspc
      · exact h1 (mem_tsSubF _ _ (mem_htmlSubF _ _ (mem_splitLines hl hcl2)))
      · exact absurd hspc (by decide)
    have hpr : '(' ∉ joinSpace V := by
      intro hm
      rcases hmemV hm with ⟨l, hl, hcl2⟩ | hspc
      · exact h2 (mem_tsSubF _ _ (mem_htmlSubF _ _ (mem_splitLines hl hcl2)))
      · exact absurd hspc (by decide)
    have hy : cleanSubtitleText x = joinSpace V := by
      show stripWS (lazySub '(' ')' (lazySub '[' ']' (collapseWS
        (joinSpace (dedupLoop (splitLines (htmlSub (tsSub x))) []))))) = joinSpace V
      rw [hVeq, collapseWS_join hVclean]
      rw [show lazySub '[' ']' (joinSpace V) = joinSpace V from lazySubF_id_not_mem _ hbr]
      rw [show lazySub '(' ')' (joinSpace V) = joinSpace V from lazySubF_id_not_mem _ hpr]
      exact stripWS_join hVclean
    have hy2 : cleanSubtitleText x = joinSpace (v0 :: restCl) := by
      rw [hy, ← hVeq, hcases]
    obtain ⟨l0, hl0, hkeep0, hv0eq, hk0⟩ := dedupLoop_facts _ _ v0
      (by rw [hcases]; exact List.mem_cons_self _ _)
    have hmemy : ∀ {c : Char}, c ∈ cleanSubtitleText x →
        (∃ l ∈ splitLines (htmlSub (tsSub x)), c ∈ l) ∨ c = ' ' := by
      intro c hc
      rw [hy] at hc
      exact hmemV hc
    have hnl : '\n' ∉ cleanSubtitleText x := by
      intro hm
      rcases hmemy hm with ⟨l, hl, hcl2⟩ | hspc
      · exact no_nl_mem_splitLines hl hcl2
      · exact absurd hspc (by decide)
    have hbrY : '[' ∉ cleanSubtitleText x := by rw [hy]; exact hbr
    have hprY : '(' ∉ cleanSubtitleText x := by rw [hy]; exact hpr
    have hv0len : 6 ≤ v0.length := by
      have hkl := keyOf_length_le v0
      omega
    have hylen : ¬ (cleanSubtitleText x).length < 3 := by
      rw [hy2]
      cases restCl with
      | nil =>
        show ¬ (joinSpace [v0]).length < 3
        show ¬ v0.length < 3
        omega
      | cons v1 r2 =>
        rw [joinSpace_cons_cons, List.length_append]
        simp only [List.length_cons]
        omega
    have hswchain : ∀ tok : Str, (∀ c ∈ tok, isWS c = false) →
        startsWith tok (cleanSubtitleText x) = true →
        startsWith tok (stripWS l0) = true := by
      intro tok htws hsw
      rw [hy2, sw_join_head htws] at hsw
      rw [hv0eq] at hsw
      exact sw_wordJoin htws hsw
    have hheader : ¬ headerSkip (cleanSubtitleText x) := by
      intro hh
      apply hkeep0.2.1
      rcases hh with h | h | h | h
      · exact Or.inl (hswchain _ (by decide) h)
      · exact Or.inr (Or.inl (hswchain _ (by decide) h))
      · exact Or.inr (Or.inr (Or.inl (hswchain _ (by decide) h)))
      · exact Or.inr (Or.inr (Or.inr (hswchain _ (by decide) h)))
    have hdash : ¬ hasSub "-->".toList (cleanSubtitleText x) = true := by
      intro hh
      rw [hy2] at hh
      obtain ⟨v, hv1, hv2⟩ := hasSub_join (by decide) (by decide) _ hh
      have hvmem : v ∈ dedupLoop (splitLines (htmlSub (tsSub x))) [] := by
        rw [hcases]; exact hv1
      obtain ⟨l, hl, hkeepl, hveq, -⟩ := dedupLoop_facts _ _ v hvmem
      rw [hveq] at hv2
      exact hkeepl.2.2.1 (hasSub_wordJoin (by decide) (by decide) hv2)
    have hdig : ¬ pyIsDigit (cleanSubtitleText x) := by
      intro hh
      have hspy : ' ' ∉ cleanSubtitleText x := by
        intro hm
        have hsd := hh.2 ' ' hm
        exact absurd hsd (by decide)
      cases restCl with
      | cons v1 r2 =>
        apply hspy
        rw [hy2, joinSpace_cons_cons]
        exact List.mem_append_right _ (List.mem_cons_self ' ' _)
      | nil =>
        have hyv : cleanSubtitleText x = wordJoin (stripWS l0) := by
          rw [hy2, ← hv0eq]
          rfl
        rw [hyv] at hh
        exact hkeep0.2.2.2.1 (pyIsDigit_wordJoin hh)
    have htime : ¬ timePat (cleanSubtitleText x) = true := by
      intro hh
      obtain ⟨a, b, c, d, e, f, z, hyform, ha, hb, hc2, hd2, he2, hf2⟩ := timePat_elim hh
      have hws8 : ∀ ch ∈ [a, b, ':', c, d, ':', e, f], isWS ch = false := by
        intro ch hch
        simp only [List.mem_cons, List.not_mem_nil, or_false] at hch
        rcases hch with h | h | h | h | h | h | h | h <;> subst h
        · exact isDigit_not_ws ha
        · exact isDigit_not_ws hb
        · decide
        · exact isDigit_not_ws hc2
        · exact isDigit_not_ws hd2
        · decide
        · exact isDigit_not_ws he2
        · exact isDigit_not_ws hf2
      have hsw : startsWith [a, b, ':', c, d, ':', e, f] (cleanSubtitleText x) = true := by
        rw [hyform]
        exact sw_of_append [a, b, ':', c, d, ':', e, f] z
      obtain ⟨z2, hz2⟩ := startsWith_decomp (hswchain _ hws8 hsw)
      apply hkeep0.2.2.2.2
      rw [hz2]
      show timePat (a :: b :: ':' :: c :: d :: ':' :: e :: f :: z2) = true
      rw [timePat_cons_eq]
      simp [ha, hb, hc2, hd2, he2, hf2]
    have hky : 5 < (keyOf (cleanSubtitleText x)).length := by
      rw [hy2]
      exact keyOf_join_head hk0 restCl
    have hkeepy : keepLine (cleanSubtitleText x) := ⟨hylen, hheader, hdash, hdig, htime⟩
    have hstripy : stripWS (cleanSubtitleText x) = cleanSubtitleText x := by
      rw [hy]; exact stripWS_join hVclean
    have hwjy : wordJoin (cleanSubtitleText x) = cleanSubtitleText x := by
      rw [hy]; exact wordJoin_join hVclean
    have hcolly : collapseWS (cleanSubtitleText x) = cleanSubtitleText x := by
      rw [hy]; exact collapseWS_join hVclean
    have hkeeps : keepLine (stripWS (cleanSubtitleText x)) := by
      rw [hstripy]; exact hkeepy
    have hwjs : wordJoin (stripWS (cleanSubtitleText x)) = cleanSubtitleText x := by
      rw [hstripy, hwjy]
    have hcond : keyOf (wordJoin (stripWS (cleanSubtitleText x))) ∉ ([] : List Str) ∧
        5 < (keyOf (wordJoin (stripWS (cleanSubtitleText x)))).length := by
      rw [hwjs]
      exact ⟨List.not_mem_nil _, hky⟩
    have hdedup : dedupLoop [cleanSubtitleText x] [] = [cleanSubtitleText x] := by
      unfold dedupLoop
      rw [if_pos hkeeps, if_pos hcond, hwjs]
      rfl
    show stripWS (lazySub '(' ')' (lazySub '[' ']' (collapseWS
      (joinSpace (dedupLoop (splitLines (htmlSub (tsSub (cleanSubtitleText x)))) []))))) =
      cleanSubtitleText x
    have hts : tsSub (cleanSubtitleText x) = cleanSubtitleText x :=
      tsSubF_id _ (containsTag_cleanSubtitleText x)
    have hhtml : htmlSub (cleanSubtitleText x) = cleanSubtitleText x :=
      htmlSubF_id _ (containsTag_cleanSubtitleText x)
    rw [hts, hhtml, splitLines_no_nl hnl, hdedup]
    show stripWS (lazySub '(' ')' (lazySub '[' ']' (collapseWS (cleanSubtitleText x)))) =
      cleanSubtitleText x
    rw [hcolly]
    rw [show lazySub '[' ']' (cleanSubtitleText x) = cleanSubtitleText x from
      lazySubF_id_not_mem _ hbrY]
    rw [show lazySub '(' ')' (cleanSubtitleText x) = cleanSubtitleText x from
      lazySubF_id_not_mem _ hprY]
    exact hstripy

theorem clean_subtitle_text_idempotent_no_brackets_witness :
    '[' ∉ "Hello world subtitle".toList ∧ '(' ∉ "Hello world subtitle".toList ∧
      cleanSubtitleText (cleanSubtitleText "Hello world subtitle".toList) =
        cleanSubtitleText "Hello world subtitle".toList :=
  ⟨by decide, by decide,
    clean_subtitle_text_idempotent_no_brackets _ (by decide) (by decide)⟩
